import Mathlib

/-!
Shallow embedding of the polynomial-calculations program (Poly.c / Poly.h).

Modelling conventions:
- C `double` values are modelled as exact rationals (`Rat`); the program only
  adds, multiplies, divides and compares them, and every claim under study is
  about that exact arithmetic, not about rounding.
- The C `Poly` struct holds a heap array `terms`, a capacity `cap` and a live
  count `size`.  We model the live prefix `terms[0..size)` as a `List PolyTerm`
  and keep `cap` explicitly; `size` is the list length.
- C `Boolean` is `Bool`, C `Status` is the two-element type `Status` below.
- `malloc`/`realloc` can fail in C; functions whose control flow depends on
  that carry an `alloc : Bool` oracle ( `true` = allocation succeeds).
-/

namespace PolyCalc

inductive Status where
  | SUCCESS : Status
  | FAILURE : Status
deriving DecidableEq

structure PolyTerm where
  exp : Int
  coeff : Rat
deriving DecidableEq

structure Poly where
  terms : List PolyTerm
  cap : Nat
deriving DecidableEq

/-- `poly_getSize` — number of live terms. -/
def poly_getSize (p : Poly) : Nat := p.terms.length

/-- `poly_hasNoTerms`. -/
def poly_hasNoTerms (p : Poly) : Bool := poly_getSize p = 0

/-- `poly_existsTermWithExp` — linear scan for a term with the exponent. -/
def poly_existsTermWithExp (p : Poly) (e : Int) : Bool :=
  p.terms.any (fun t => t.exp = e)

/-- `poly_existsNegExp` — linear scan for a negative exponent. -/
def poly_existsNegExp (p : Poly) : Bool :=
  p.terms.any (fun t => t.exp < 0)

/-- `getNumOfNegExps` — count of terms with negative exponents. -/
def getNumOfNegExps (p : Poly) : Nat :=
  (p.terms.filter (fun t => t.exp < 0)).length

/-- The coefficient update `terms[idx].coeff += coeff` at the first index
holding exponent `e` (the index `getIndexOfTermWithExp` returns). -/
def addCoeffAtFirst : List PolyTerm → Int → Rat → List PolyTerm
  | [], _, _ => []
  | t :: ts, e, c =>
      if t.exp = e then { t with coeff := t.coeff + c } :: ts
      else t :: addCoeffAtFirst ts e c

/-- Removal of the first term with exponent `e` (the shifting loop in
`poly_removeTermWithExp`). -/
def removeFirstWithExp : List PolyTerm → Int → List PolyTerm
  | [], _ => []
  | t :: ts, e => if t.exp = e then ts else t :: removeFirstWithExp ts e

/-- The read `terms[idx].coeff` at the first index holding exponent `e`
(0 when absent; only used when a term with exponent `e` exists). -/
def coeffOfFirstWithExp (ts : List PolyTerm) (e : Int) : Rat :=
  ((ts.find? (fun t => t.exp = e)).map PolyTerm.coeff).getD 0

/-- `resize` — grows capacity by one; fails exactly when `realloc` fails. -/
def resize (alloc : Bool) (p : Poly) : Status × Poly :=
  if alloc then (Status.SUCCESS, { p with cap := p.cap + 1 }) else (Status.FAILURE, p)

/-- `poly_addTerm` — the combining insert.  `alloc` tells whether a `realloc`
performed by `resize` would succeed. -/
def poly_addTerm (alloc : Bool) (p : Poly) (e : Int) (c : Rat) : Status × Poly :=
  if poly_existsTermWithExp p e then
    let ts := addCoeffAtFirst p.terms e c
    if coeffOfFirstWithExp ts e = 0 then
      (Status.SUCCESS, { p with terms := removeFirstWithExp ts e })
    else
      (Status.SUCCESS, { p with terms := ts })
  else if c ≠ 0 then
    if poly_getSize p = p.cap then
      match resize alloc p with
      | (Status.FAILURE, _) => (Status.FAILURE, p)
      | (Status.SUCCESS, p') =>
          (Status.SUCCESS, { p' with terms := p'.terms ++ [⟨e, c⟩] })
    else
      (Status.SUCCESS, { p with terms := p.terms ++ [⟨e, c⟩] })
  else
    (Status.SUCCESS, p)

/-- `poly_removeTermWithExp`. -/
def poly_removeTermWithExp (p : Poly) (e : Int) : Status × Poly :=
  if poly_existsTermWithExp p e then
    (Status.SUCCESS, { p with terms := removeFirstWithExp p.terms e })
  else
    (Status.FAILURE, p)

/-- `poly_reset` — sets the size to 0 (capacity and dead storage kept). -/
def poly_reset (p : Poly) : Poly := { p with terms := [] }

/-- `poly_initDefault` — empty polynomial with capacity 1. -/
def poly_initDefault : Poly := { terms := [], cap := 1 }

/-- `poly_getDegree` — maximum exponent; flag set when there are no terms. -/
def poly_getDegree (p : Poly) : Int × Bool :=
  match p.terms with
  | [] => (0, true)
  | t :: ts => (ts.foldl (fun d u => if u.exp > d then u.exp else d) t.exp, false)

/-- `poly_getCoeffOfExp`. -/
def poly_getCoeffOfExp (p : Poly) (e : Int) : Rat × Bool × Bool :=
  if poly_getSize p = 0 then (0, true, false)
  else
    match p.terms.find? (fun t => t.exp = e) with
    | some t => (t.coeff, false, true)
    | none => (0, false, false)

/-- `diffTerm` — one term's derivative; constants collapse to the (0,0)
sentinel used by `diffPoly` to drop them. -/
def diffTerm (t : PolyTerm) : PolyTerm :=
  if t.exp = 0 then { exp := 0, coeff := 0 }
  else { exp := t.exp - 1, coeff := t.coeff * (t.exp : Rat) }

/-- `diffPoly` — one differentiation step.  The C loop writes the kept
derivatives into the array prefix and decrements `size` by one exactly when
some derivative was the (0,0) sentinel; entries past the write index keep
their old values, which the final `take` reproduces faithfully. -/
def diffPoly (p : Poly) : Status × Poly :=
  if poly_getSize p = 0 then (Status.FAILURE, p)
  else
    let derivs := p.terms.map diffTerm
    let kept := derivs.filter (fun d => ¬(d.coeff = 0 ∧ d.exp = 0))
    let newSize := if kept.length < derivs.length then p.terms.length - 1 else p.terms.length
    (Status.SUCCESS, { p with terms := (kept ++ p.terms.drop kept.length).take newSize })

/-- `poly_calcNthDeriv`'s differentiation loop:
`for (i = 0; i < n && !(*pNthDerivIsZero); ++i)`. -/
def nthDerivLoop : Nat → Poly → Poly × Bool
  | 0, p => (p, false)
  | k + 1, p =>
      match diffPoly p with
      | (Status.FAILURE, p') => (p', true)
      | (Status.SUCCESS, p') => nthDerivLoop k p'

/-- `poly_calcNthDeriv`. -/
def poly_calcNthDeriv (p : Poly) (n : Int) : Status × Poly × Bool :=
  if poly_getSize p = 0 then (Status.FAILURE, p, false)
  else
    let r := nthDerivLoop n.toNat p
    (Status.SUCCESS, r.1, r.2)

/-- `integrateTerm` — one term's integral together with the exponent-(−1)
report pair. -/
def integrateTerm (t : PolyTerm) : PolyTerm × Bool × Rat :=
  if t.exp = -1 then (t, true, t.coeff)
  else ({ exp := t.exp + 1, coeff := t.coeff / ((t.exp + 1 : Int) : Rat) }, false, 0)

/-- The integration loop of `integratePoly`: processes terms left to right,
skipping (and capturing) the first term with exponent −1; later terms with
exponent −1 would be kept unchanged, as in the C guard
`if (expNegOneIntegrated && !(*pExpNegOneIntegrated))`. -/
def integLoop : Bool → List PolyTerm → List PolyTerm × Bool × Rat
  | _, [] => ([], false, 0)
  | seen, t :: ts =>
      if t.exp = -1 ∧ ¬seen then
        let r := integLoop true ts
        (r.1, true, t.coeff)
      else
        let r := integLoop seen ts
        ((integrateTerm t).1 :: r.1, r.2.1, r.2.2)

/-- `integratePoly` — one integration step. -/
def integratePoly (p : Poly) : Status × Poly × Bool × Rat :=
  if poly_getSize p = 0 then (Status.FAILURE, p, false, 0)
  else
    let r := integLoop false p.terms
    (Status.SUCCESS, { p with terms := r.1 }, r.2.1, r.2.2)

/-- `poly_calcIndefIntegral`. -/
def poly_calcIndefIntegral (p : Poly) : Status × Poly × Bool × Rat :=
  if poly_getSize p = 0 then (Status.FAILURE, p, false, 0)
  else
    let r := integLoop false p.terms
    (Status.SUCCESS, { p with terms := r.1 }, r.2.1, r.2.2)

/-- `calcXValue` — the evaluation sum; the `exp == 0` branch adds the bare
coefficient so that `x = 0` never meets `pow(0, 0)`. -/
def calcXValue (p : Poly) (x : Rat) : Rat :=
  p.terms.foldl (fun acc t => acc + (if t.exp = 0 then t.coeff else t.coeff * x ^ t.exp)) 0

/-- `poly_calcXValue`. -/
def poly_calcXValue (p : Poly) (x : Rat) : Status × Poly × Rat × Bool :=
  if poly_getSize p = 0 then (Status.FAILURE, p, 0, true)
  else if x = 0 ∧ poly_existsNegExp p then (Status.FAILURE, p, 0, false)
  else (Status.SUCCESS, p, calcXValue p x, false)

/-- `defIntegralDivByZeroError`. -/
def defIntegralDivByZeroError (p : Poly) (LB UB : Rat) : Bool :=
  if poly_existsNegExp p ∧ ((LB ≤ 0 ∧ 0 ≤ UB) ∨ (UB ≤ 0 ∧ 0 ≤ LB)) then
    if getNumOfNegExps p = 1 then
      if poly_existsTermWithExp p (-1) then false else true
    else true
  else false

/-- `defIntegralNatLogError`. -/
def defIntegralNatLogError (p : Poly) (LB UB : Rat) : Bool :=
  poly_existsTermWithExp p (-1) && (decide ((LB ≤ 0 ∧ 0 ≤ UB) ∨ (UB ≤ 0 ∧ 0 ≤ LB)))

/-- Result record for `poly_calcDefIntegral` (the C out-parameters). -/
structure DefIntegralResult where
  status : Status
  poly : Poly
  result : Rat
  expNegOneIntegrated : Bool
  coeffExpNegOne : Rat
  polyHasNoTerms : Bool
  divByZeroError : Bool
  natLogError : Bool
deriving DecidableEq

/-- `poly_calcDefIntegral`. -/
def poly_calcDefIntegral (p : Poly) (LB UB : Rat) : DefIntegralResult :=
  if poly_getSize p = 0 then
    ⟨Status.FAILURE, p, 0, false, 0, true, false, false⟩
  else if defIntegralDivByZeroError p LB UB ∧ ¬defIntegralNatLogError p LB UB then
    ⟨Status.FAILURE, p, 0, false, 0, false, true, false⟩
  else if ¬defIntegralDivByZeroError p LB UB ∧ defIntegralNatLogError p LB UB then
    ⟨Status.FAILURE, p, 0, false, 0, false, false, true⟩
  else if defIntegralDivByZeroError p LB UB ∧ defIntegralNatLogError p LB UB then
    ⟨Status.FAILURE, p, 0, false, 0, false, true, true⟩
  else
    let r := integLoop false p.terms
    let p' : Poly := { p with terms := r.1 }
    ⟨Status.SUCCESS, p', calcXValue p' UB - calcXValue p' LB, r.2.1, r.2.2, false, false, false⟩

/-- `poly_copy` into an existing destination: reset then re-insert each source
term in order through `poly_addTerm`. -/
def copyLoop (alloc : Bool) : List PolyTerm → Poly → Status × Poly
  | [], d => (Status.SUCCESS, d)
  | t :: ts, d =>
      match poly_addTerm alloc d t.exp t.coeff with
      | (Status.FAILURE, d') => (Status.FAILURE, d')
      | (Status.SUCCESS, d') => copyLoop alloc ts d'

/-- `poly_copy` with an existing destination polynomial. -/
def poly_copy (alloc : Bool) (src dest : Poly) : Status × Poly :=
  copyLoop alloc src.terms (poly_reset dest)

/-- The selection scan
`for (j = i+1; ...) if (terms[j].exp > terms[indexOfMax].exp) indexOfMax = j`:
index (counting from the current head) of the first occurrence of the maximum
exponent. -/
def idxMaxAux : List PolyTerm → Int → Nat → Nat → Nat
  | [], _, best, _ => best
  | t :: ts, bestExp, best, j =>
      if t.exp > bestExp then idxMaxAux ts t.exp j (j + 1)
      else idxMaxAux ts bestExp best (j + 1)

/-- The `swap` of positions 0 and `k` in the tail-to-sort. -/
def swapSel (l : List PolyTerm) (k : Nat) : List PolyTerm :=
  match l with
  | [] => []
  | t :: rest =>
      if k = 0 then l
      else
        match rest.get? (k - 1) with
        | none => l
        | some tk => tk :: rest.set (k - 1) t

/-- The selection-sort outer loop of `poly_sort`, with the remaining length as
fuel (each pass fixes one position). -/
def selSortFuel : Nat → List PolyTerm → List PolyTerm
  | 0, l => l
  | _ + 1, [] => []
  | fuel + 1, t :: rest =>
      match swapSel (t :: rest) (idxMaxAux rest t.exp 0 1) with
      | [] => []
      | t' :: rest' => t' :: selSortFuel fuel rest'

/-- `poly_sort` — selection sort, descending by exponent. -/
def poly_sort (p : Poly) : Poly :=
  { p with terms := selSortFuel p.terms.length p.terms }

/-! ## Polynomial string parser (Poly.c helper functions) -/

/-- C `isspace` in the default locale. -/
def isspaceC (c : Char) : Bool :=
  c = ' ' ∨ c = '\t' ∨ c = '\n' ∨ c = '\x0b' ∨ c = '\x0c' ∨ c = '\r'

/-- C `isdigit`. -/
def isdigitC (c : Char) : Bool := '0' ≤ c ∧ c ≤ '9'

/-- The `validCompChars` table. -/
def validCompChars : List Char :=
  ['0', '1', '2', '3', '4', '5', '6', '7', '8', '9', 'x', 'X', '+', '-', '.', '^']

/-- `allCompCharsAreValid`. -/
def allCompCharsAreValid (comp : List Char) : Bool :=
  comp.all (fun c => validCompChars.contains c)

/-- The component-splitting loop shared by `poly_isValidPolyStr`,
`getMaxNumOfTerms` and `newPoly`: skip a run of `isspace` characters, read a
maximal run of non-`isspace` characters, repeat.  `fuel` bounds the recursion
(any value above the string length is enough). -/
def splitCompsFuel : Nat → List Char → List (List Char)
  | 0, _ => []
  | fuel + 1, cs =>
      let cs' := cs.dropWhile isspaceC
      match cs'.takeWhile (fun c => ¬isspaceC c) with
      | [] => []
      | comp => comp :: splitCompsFuel fuel (cs'.dropWhile (fun c => ¬isspaceC c))

/-- The list of whitespace-separated components of a polynomial string. -/
def splitComps (cs : List Char) : List (List Char) :=
  splitCompsFuel (cs.length + 1) cs

/-- The validation loop of `inputsAreValidDoubles`.  `prev` is the character
before the current one (`none` at index 0), `negE`/`decE` say whether a
negative sign / decimal point was already seen in the current number. -/
def vdLoop : List Char → Option Char → Bool → Bool → Bool
  | [], _, _, _ => true
  | c :: cs, prev, negE, decE =>
      if ¬(isdigitC c ∨ c = ' ' ∨ c = '-' ∨ c = '.') then false
      else if c = ' ' then vdLoop cs (some ' ') false false
      else if c = '-' then
        if negE then false
        else
          let nextOk : Bool := match cs with | d :: _ => isdigitC d || decide (d = '.') | [] => false
          match prev with
          | none => if nextOk then vdLoop cs (some '-') true decE else false
          | some pc => if nextOk ∧ pc = ' ' then vdLoop cs (some '-') true decE else false
      else if c = '.' then
        if decE then false
        else
          let nextOk : Bool := match cs with | d :: _ => isdigitC d | [] => false
          match prev with
          | none => if nextOk then vdLoop cs (some '.') negE true else false
          | some pc =>
              if nextOk ∧ (isdigitC pc ∨ pc = ' ' ∨ pc = '-') then vdLoop cs (some '.') negE true
              else false
      else vdLoop cs (some c) negE decE

/-- The final counting pass of `inputsAreValidDoubles`/`inputsAreValidInts`:
number of maximal runs of non-space characters (split on `' '` only). -/
def countTokFuel : Nat → List Char → Nat
  | 0, _ => 0
  | fuel + 1, cs =>
      let cs' := cs.dropWhile (fun c => c = ' ')
      match cs'.takeWhile (fun c => ¬c = ' ') with
      | [] => 0
      | _ => 1 + countTokFuel fuel (cs'.dropWhile (fun c => ¬c = ' '))

/-- `inputsAreValidDoubles`. -/
def inputsAreValidDoubles (cs : List Char) (expectedNums : Nat) : Bool :=
  let lead := cs.takeWhile isspaceC
  if ¬lead.all (fun c => c = ' ') then false
  else
    let rest := cs.dropWhile isspaceC
    if rest.isEmpty then false
    else if vdLoop rest (if lead.isEmpty then none else some ' ') false false then
      countTokFuel (cs.length + 1) cs = expectedNums
    else false

/-- The validation loop of `inputsAreValidInts`. -/
def viLoop : List Char → Option Char → Bool → Bool
  | [], _, _ => true
  | c :: cs, prev, negE =>
      if ¬(isdigitC c ∨ c = ' ' ∨ c = '-') then false
      else if c = ' ' then viLoop cs (some ' ') false
      else if c = '-' then
        if negE then false
        else
          let nextOk : Bool := match cs with | d :: _ => isdigitC d | [] => false
          match prev with
          | none => if nextOk then viLoop cs (some '-') true else false
          | some pc => if nextOk ∧ pc = ' ' then viLoop cs (some '-') true else false
      else viLoop cs (some c) negE

/-- `inputsAreValidInts`. -/
def inputsAreValidInts (cs : List Char) (expectedNums : Nat) : Bool :=
  let lead := cs.takeWhile isspaceC
  if ¬lead.all (fun c => c = ' ') then false
  else
    let rest := cs.dropWhile isspaceC
    if rest.isEmpty then false
    else if viLoop rest (if lead.isEmpty then none else some ' ') false then
      countTokFuel (cs.length + 1) cs = expectedNums
    else false

/-- The tail of a component after the coefficient scan
(`while (comp[i] != 'x' && comp[i] != 'X' && comp[i] != '\0')`), checked for
the `[x][^exponent]` shape. -/
def afterXCheck : List Char → Bool
  | [] => false
  | _ :: rest =>
      match rest with
      | [] => true
      | c :: expCs => if c ≠ '^' then false else inputsAreValidInts expCs 1

/-- `isValidComp`. -/
def isValidComp (comp : List Char) : Bool :=
  if ¬allCompCharsAreValid comp then false
  else if comp.length = 1 then
    match comp with
    | [c] =>
        decide (c = 'x') || decide (c = 'X') || decide (c = '-') || decide (c = '+') || isdigitC c
    | _ => false
  else
    let coeffCs := comp.takeWhile (fun c => c ≠ 'x' ∧ c ≠ 'X')
    let rest := comp.dropWhile (fun c => c ≠ 'x' ∧ c ≠ 'X')
    if ¬coeffCs.isEmpty then
      if coeffCs ≠ ['-'] ∧ ¬inputsAreValidDoubles coeffCs 1 then false
      else if rest.isEmpty then true
      else afterXCheck rest
    else afterXCheck rest

/-- The component loop of `poly_isValidPolyStr`, run on the split components
(the C loop's `comp == ""` break is the end of this list). -/
def validCompsLoop : List (List Char) → Bool → Bool → Bool
  | [], prevIsOp, _ => !prevIsOp
  | comp :: rest, prevIsOp, isFirst =>
      if ¬isValidComp comp then false
      else if isFirst then
        if comp = ['+'] ∨ comp = ['-'] then false else validCompsLoop rest false false
      else if comp = ['+'] ∨ comp = ['-'] then
        if prevIsOp then false else validCompsLoop rest true false
      else if ¬prevIsOp then false
      else validCompsLoop rest false false

/-- `poly_isValidPolyStr`. -/
def poly_isValidPolyStr (s : String) : Bool :=
  if s.data.isEmpty then false
  else validCompsLoop (splitComps s.data) false true

/-- Numeric value of a decimal digit. -/
def digitVal (c : Char) : Nat := c.toNat - '0'.toNat

/-- Value of a string of decimal digits. -/
def decDigitsToNat (ds : List Char) : Nat :=
  ds.foldl (fun a c => 10 * a + digitVal c) 0

/-- The numeric value of a digit string with an optional fraction part
(shared by the `strtod` model below). -/
def decValQ (l : List Char) : Rat :=
  let ip := l.takeWhile isdigitC
  let rest := l.dropWhile isdigitC
  let fp := match rest with | '.' :: r2 => r2.takeWhile isdigitC | _ => []
  (decDigitsToNat ip : Rat) + (decDigitsToNat fp : Rat) / ((10 : Rat) ^ fp.length)

/-- Models C `strtod` on the coefficient strings that reach it here, which the
validator has already constrained to `[-] digit* [. digit*]` (no exponent
notation, no leading whitespace, at most one sign and one point). -/
def strtodQ (cs : List Char) : Rat :=
  match cs with
  | [] => 0
  | c :: r => if c = '-' then -decValQ r else decValQ (c :: r)

/-- Models C `atoi` on the exponent strings that reach it here, which the
validator has already constrained to `[-] digit+`. -/
def atoiZ (cs : List Char) : Int :=
  match cs with
  | [] => 0
  | c :: r =>
      if c = '-' then -((decDigitsToNat (r.takeWhile isdigitC) : Int))
      else (decDigitsToNat ((c :: r).takeWhile isdigitC) : Int)

/-- `getCoeffOfTerm`. -/
def getCoeffOfTerm (term : List Char) : Rat :=
  let coeffCs := term.takeWhile (fun c => c ≠ 'x' ∧ c ≠ 'X')
  if coeffCs.isEmpty then 1
  else if coeffCs = ['-'] then -1
  else
    let v := strtodQ coeffCs
    if |v| = 0 then 0 else v

/-- `getExpOfTerm`. -/
def getExpOfTerm (term : List Char) : Int :=
  let rest := term.dropWhile (fun c => c ≠ 'x' ∧ c ≠ 'X')
  match rest with
  | [] => 0
  | [_] => 1
  | _ :: _ :: expCs => atoiZ expCs

/-- `getMaxNumOfTerms` — component count excluding operators. -/
def getMaxNumOfTerms (cs : List Char) : Nat :=
  ((splitComps cs).filter (fun c => c ≠ ['+'] ∧ c ≠ ['-'])).length

/-- The component loop of `newPoly`. -/
def newPolyLoop (alloc : Bool) : List (List Char) → Bool → Bool → Poly → Status × Poly
  | [], _, _, p => (Status.SUCCESS, p)
  | comp :: rest, opIsMinus, isFirst, p =>
      if comp = ['+'] ∨ comp = ['-'] then
        newPolyLoop alloc rest (comp = ['-']) isFirst p
      else
        let coeff := getCoeffOfTerm comp
        if coeff ≠ 0 then
          let coeff' := if ¬isFirst ∧ opIsMinus then -coeff else coeff
          match poly_addTerm alloc p (getExpOfTerm comp) coeff' with
          | (Status.FAILURE, p') => (Status.FAILURE, p')
          | (Status.SUCCESS, p') => newPolyLoop alloc rest opIsMinus false p'
        else newPolyLoop alloc rest opIsMinus false p

/-- `newPoly` — accumulates the terms of a (pre-validated) polynomial string
into an existing polynomial object. -/
def newPoly (alloc : Bool) (p : Poly) (cs : List Char) : Status × Poly :=
  newPolyLoop alloc (splitComps cs) false true p

/-- `poly_initPolyStr` — returns the constructed polynomial (or `none`) and
the string-validity flag. -/
def poly_initPolyStr (alloc : Bool) (s : String) : Option Poly × Bool :=
  if ¬poly_isValidPolyStr s then (none, false)
  else
    match newPoly alloc { terms := [], cap := getMaxNumOfTerms s.data } s.data with
    | (Status.FAILURE, _) => (none, true)
    | (Status.SUCCESS, p) => (some p, true)

/-- `poly_newPoly` — rebuilds an existing polynomial object from a string. -/
def poly_newPoly (alloc : Bool) (p : Poly) (s : String) : Status × Poly × Bool :=
  if ¬poly_isValidPolyStr s then (Status.FAILURE, p, false)
  else
    match newPoly alloc (poly_reset p) s.data with
    | (Status.FAILURE, p') => (Status.FAILURE, p', true)
    | (Status.SUCCESS, p') => (Status.SUCCESS, p', true)

/-! ## Rendering (`poly_print`)

`poly_print` writes coefficients with `printf("%g", ...)` and exponents with
`printf("%d", ...)`.  `%g` is modelled exactly on the rational value (6
significant digits, fixed or scientific style as in C99 7.19.6.1, trailing
zeros removed, ties rounded to even). -/

/-- Decimal digit character. -/
def digitChar (d : Nat) : Char :=
  match d with
  | 0 => '0' | 1 => '1' | 2 => '2' | 3 => '3' | 4 => '4'
  | 5 => '5' | 6 => '6' | 7 => '7' | 8 => '8' | _ => '9'

/-- Decimal digits of a natural number, fuel-bounded (`fuel > n` suffices). -/
def natToDecFuel : Nat → Nat → List Char → List Char
  | 0, _, acc => acc
  | fuel + 1, n, acc =>
      if n < 10 then digitChar n :: acc
      else natToDecFuel fuel (n / 10) (digitChar (n % 10) :: acc)

/-- Decimal digits of a natural number (`printf("%u")`). -/
def natToDec (n : Nat) : List Char := natToDecFuel (n + 1) n []

/-- `printf("%d")` for an integer. -/
def intToDec (e : Int) : List Char :=
  if e < 0 then '-' :: natToDec (-e).toNat else natToDec e.toNat

/-- Remove trailing `'0'` characters. -/
def stripTrailingZeros (ds : List Char) : List Char :=
  (ds.reverse.dropWhile (fun c => c = '0')).reverse

/-- Floor of a rational as an integer. -/
def ratFloorZ (q : Rat) : Int := Int.fdiv q.num q.den

/-- Round to the nearest integer, ties to even (IEEE default, used by
`printf` when shortening a value). -/
def roundHalfEven (q : Rat) : Int :=
  let f := ratFloorZ q
  let r := q - (f : Rat)
  if r < 1 / 2 then f
  else if (1 / 2 : Rat) < r then f + 1
  else if f % 2 = 0 then f else f + 1

/-- For `q > 0`, the decimal exponent `E` with `10^E ≤ q < 10^(E+1)`. -/
def ratExp10 (q : Rat) : Int :=
  let e0 : Int := (natToDec q.num.toNat).length - (natToDec q.den).length
  if q < (10 : Rat) ^ e0 then e0 - 1 else e0

/-- Exponent field of `%g` scientific style: sign and at least two digits. -/
def expField (e : Int) : List Char :=
  let ds := natToDec e.natAbs
  (if e < 0 then '-' else '+') :: (if ds.length < 2 then '0' :: ds else ds)

/-- `printf("%g", q)` for positive `q`: 6 significant digits, scientific
style when the decimal exponent is below −4 or at least 6. -/
def fmtGpos (q : Rat) : List Char :=
    let e1 := ratExp10 q
    let m1 := roundHalfEven (q * (10 : Rat) ^ (5 - e1))
    let m := if m1 = 1000000 then 100000 else m1
    let e := if m1 = 1000000 then e1 + 1 else e1
    let ds := natToDec m.toNat
    if -4 ≤ e ∧ e < 6 then
      if 0 ≤ e then
        let ipart := ds.take (e.toNat + 1)
        let fpart := stripTrailingZeros (ds.drop (e.toNat + 1))
        ipart ++ (if fpart.isEmpty then [] else '.' :: fpart)
      else
        '0' :: '.' :: List.replicate (-e - 1).toNat '0' ++ stripTrailingZeros ds
    else
      match stripTrailingZeros ds with
      | [] => ['0']
      | d :: fpart =>
          d :: (if fpart.isEmpty then [] else '.' :: fpart) ++ 'e' :: expField e

/-- `printf("%g", q)` on the exact rational `q`. -/
def fmtG (q : Rat) : List Char :=
  if q = 0 then ['0']
  else if q < 0 then '-' :: fmtGpos (-q)
  else fmtGpos q

/-- The coefficient part printed for one term (`i == 0` is `isFirst`):
constants print the value (absolute value when not first); non-constant
coefficients 1/−1 are elided to nothing/just the sign. -/
def renderCoeff (isFirst : Bool) (t : PolyTerm) : List Char :=
  if t.exp = 0 then
    if isFirst then fmtG t.coeff else fmtG |t.coeff|
  else
    if isFirst then
      if t.coeff = -1 then ['-']
      else if t.coeff = 1 then []
      else fmtG t.coeff
    else
      if |t.coeff| = 1 then [] else fmtG |t.coeff|

/-- The `x`/exponent part printed for one term: nothing for constants, bare
`x` for exponent 1, `x^<exp>` otherwise. -/
def renderXPart (t : PolyTerm) : List Char :=
  if t.exp = 0 then [] else 'x' :: (if t.exp = 1 then [] else '^' :: intToDec t.exp)

/-- The separator printed before the next term, chosen by that term's sign. -/
def renderSep (next : PolyTerm) : List Char :=
  if next.coeff < 0 then [' ', '-', ' '] else [' ', '+', ' ']

/-- The printing loop of `poly_print`. -/
def renderTerms : Bool → List PolyTerm → List Char
  | _, [] => []
  | isFirst, [t] => renderCoeff isFirst t ++ renderXPart t
  | isFirst, t :: u :: ts =>
      renderCoeff isFirst t ++ renderXPart t ++ renderSep u ++ renderTerms false (u :: ts)

/-- `poly_print` — fails on an empty polynomial, otherwise produces the
display text. -/
def poly_print (p : Poly) : Status × String :=
  if poly_hasNoTerms p then (Status.FAILURE, "")
  else (Status.SUCCESS, ⟨renderTerms true p.terms⟩)

/-- The validity invariant of a polynomial object (README rules 1.2.1 and
1.3): no stored coefficient is 0 and no two stored terms share an exponent. -/
def polyInv (p : Poly) : Prop :=
  (∀ t ∈ p.terms, t.coeff ≠ 0) ∧ (p.terms.map PolyTerm.exp).Nodup

instance (p : Poly) : Decidable (polyInv p) := by
  unfold polyInv
  infer_instance

/-! ## Lemmas about the term-list helpers -/

theorem existsTermWithExp_eq_false_iff (p : Poly) (e : Int) :
    poly_existsTermWithExp p e = false ↔ ∀ t ∈ p.terms, t.exp ≠ e := by
  simp [poly_existsTermWithExp]

theorem existsTermWithExp_eq_true_iff (p : Poly) (e : Int) :
    poly_existsTermWithExp p e = true ↔ ∃ t ∈ p.terms, t.exp = e := by
  simp [poly_existsTermWithExp]

theorem addCoeffAtFirst_map_exp (ts : List PolyTerm) (e : Int) (c : Rat) :
    (addCoeffAtFirst ts e c).map PolyTerm.exp = ts.map PolyTerm.exp := by
  induction ts with
  | nil => rfl
  | cons t ts ih =>
      by_cases h : t.exp = e <;> simp [addCoeffAtFirst, h, ih]

theorem addCoeffAtFirst_zero (ts : List PolyTerm) (e : Int) :
    addCoeffAtFirst ts e 0 = ts := by
  induction ts with
  | nil => rfl
  | cons t ts ih =>
      obtain ⟨te, tc⟩ := t
      by_cases h : te = e <;> simp [addCoeffAtFirst, h, ih]

theorem removeFirstWithExp_sublist (ts : List PolyTerm) (e : Int) :
    (removeFirstWithExp ts e).Sublist ts := by
  induction ts with
  | nil => simp [removeFirstWithExp]
  | cons t ts ih =>
      by_cases h : t.exp = e
      · simp only [removeFirstWithExp, h, if_true]
        exact (List.sublist_cons_self t ts)
      · simp only [removeFirstWithExp, h, if_false]
        exact ih.cons₂ t

theorem removeFirstWithExp_map_exp (ts : List PolyTerm) (e : Int) :
    (removeFirstWithExp ts e).map PolyTerm.exp = (ts.map PolyTerm.exp).erase e := by
  induction ts with
  | nil => rfl
  | cons t ts ih =>
      by_cases h : t.exp = e
      · simp [removeFirstWithExp, h, List.erase_cons_head]
      · simp [removeFirstWithExp, h, List.erase_cons_tail, ih]

theorem removeFirstWithExp_addCoeffAtFirst (ts : List PolyTerm) (e : Int) (c : Rat) :
    removeFirstWithExp (addCoeffAtFirst ts e c) e = removeFirstWithExp ts e := by
  induction ts with
  | nil => rfl
  | cons t ts ih =>
      by_cases h : t.exp = e <;> simp [addCoeffAtFirst, removeFirstWithExp, h, ih]

theorem coeffOfFirstWithExp_ne_zero_forall (ts : List PolyTerm) (e : Int) (c : Rat)
    (h0 : ∀ t ∈ ts, t.coeff ≠ 0)
    (hne : coeffOfFirstWithExp (addCoeffAtFirst ts e c) e ≠ 0) :
    ∀ u ∈ addCoeffAtFirst ts e c, u.coeff ≠ 0 := by
  induction ts with
  | nil => simp [addCoeffAtFirst]
  | cons t ts ih =>
      by_cases h : t.exp = e
      · simp only [addCoeffAtFirst, h, if_true] at hne ⊢
        simp [coeffOfFirstWithExp, h] at hne
        intro u hu
        rcases List.mem_cons.1 hu with hu | hu
        · subst hu
          simpa using hne
        · exact h0 u (List.mem_cons_of_mem _ hu)
      · simp only [addCoeffAtFirst, h, if_false] at hne ⊢
        simp only [coeffOfFirstWithExp, List.find?_cons, h] at hne
        intro u hu
        rcases List.mem_cons.1 hu with hu | hu
        · exact hu ▸ h0 t (List.mem_cons_self t ts)
        · refine ih (fun v hv => h0 v (List.mem_cons_of_mem _ hv)) ?_ u hu
          simpa [coeffOfFirstWithExp, h] using hne

theorem addCoeffAtFirst_append_of_forall_ne (ts l : List PolyTerm) (e : Int) (c : Rat)
    (h : ∀ t ∈ ts, t.exp ≠ e) :
    addCoeffAtFirst (ts ++ l) e c = ts ++ addCoeffAtFirst l e c := by
  induction ts with
  | nil => rfl
  | cons t ts ih =>
      have ht : t.exp ≠ e := h t (List.mem_cons_self t ts)
      simp [addCoeffAtFirst, ht, ih (fun u hu => h u (List.mem_cons_of_mem _ hu))]

theorem removeFirstWithExp_append_of_forall_ne (ts l : List PolyTerm) (e : Int)
    (h : ∀ t ∈ ts, t.exp ≠ e) :
    removeFirstWithExp (ts ++ l) e = ts ++ removeFirstWithExp l e := by
  induction ts with
  | nil => rfl
  | cons t ts ih =>
      have ht : t.exp ≠ e := h t (List.mem_cons_self t ts)
      simp [removeFirstWithExp, ht, ih (fun u hu => h u (List.mem_cons_of_mem _ hu))]

theorem coeffOfFirstWithExp_append_of_forall_ne (ts l : List PolyTerm) (e : Int)
    (h : ∀ t ∈ ts, t.exp ≠ e) :
    coeffOfFirstWithExp (ts ++ l) e = coeffOfFirstWithExp l e := by
  induction ts with
  | nil => rfl
  | cons t ts ih =>
      have ht : t.exp ≠ e := h t (List.mem_cons_self t ts)
      simp only [coeffOfFirstWithExp, List.cons_append, List.find?_cons, ht, decide_eq_true_eq,
        if_false]
      simpa [coeffOfFirstWithExp] using ih (fun u hu => h u (List.mem_cons_of_mem _ hu))

/-! ## Claim C10 — `poly_addTerm` failure analysis -/

/-- C10: `poly_addTerm` can fail only when appending a brand-new term requires
growing storage: whenever a term with the exponent already exists, or the
coefficient is 0, or the size is strictly below the capacity, it returns
SUCCESS; and adding coefficient 0 at an exponent that already has a term
returns SUCCESS and leaves the polynomial unchanged. -/
theorem poly_addTerm_success_unless_alloc :
    ∀ (alloc : Bool) (p : Poly) (e : Int) (c : Rat),
      ((poly_existsTermWithExp p e = true ∨ c = 0 ∨ poly_getSize p < p.cap) →
        (poly_addTerm alloc p e c).1 = Status.SUCCESS) ∧
      (polyInv p → poly_existsTermWithExp p e = true →
        poly_addTerm alloc p e 0 = (Status.SUCCESS, p)) := by
  intro alloc p e c
  constructor
  · intro h
    by_cases hex : poly_existsTermWithExp p e = true
    · by_cases hz : coeffOfFirstWithExp (addCoeffAtFirst p.terms e c) e = 0 <;>
        simp [poly_addTerm, hex, hz]
    · have h' : c = 0 ∨ poly_getSize p < p.cap := by
        rcases h with h | h | h
        · exact absurd h hex
        · exact Or.inl h
        · exact Or.inr h
      rcases h' with hc | hcap
      · simp [poly_addTerm, hex, hc]
      · have : poly_getSize p ≠ p.cap := Nat.ne_of_lt hcap
        by_cases hc : c = 0 <;> simp [poly_addTerm, hex, hc, this]
  · intro hinv hex
    have hadd : addCoeffAtFirst p.terms e 0 = p.terms := addCoeffAtFirst_zero p.terms e
    have hfind : ∃ t, p.terms.find? (fun t => t.exp = e) = some t := by
      have hmem : ∃ t ∈ p.terms, t.exp = e := (existsTermWithExp_eq_true_iff p e).1 hex
      rcases hmem with ⟨t, ht, hte⟩
      have hsome : (p.terms.find? (fun u => decide (u.exp = e))).isSome := by
        rw [List.find?_isSome]
        exact ⟨t, ht, by simp [hte]⟩
      exact Option.isSome_iff_exists.1 hsome
    rcases hfind with ⟨t, hfind⟩
    have htmem : t ∈ p.terms := List.mem_of_find?_eq_some hfind
    have hz : coeffOfFirstWithExp p.terms e = t.coeff := by
      simp [coeffOfFirstWithExp, hfind]
    have htc : t.coeff ≠ 0 := hinv.1 t htmem
    simp [poly_addTerm, hex, hadd, hz, htc]

/-- Witness for C10 at the polynomial `3x^2` (adding coefficient 0 at
exponent 2 succeeds and changes nothing, even with failing allocation). -/
theorem poly_addTerm_success_unless_alloc_witness :
    poly_addTerm false ⟨[⟨2, 3⟩], 1⟩ 2 0 = (Status.SUCCESS, ⟨[⟨2, 3⟩], 1⟩) :=
  (poly_addTerm_success_unless_alloc false ⟨[⟨2, 3⟩], 1⟩ 2 0).2 (by decide) (by decide)

/-! ## Claim C4 — the coefficient-cancellation law -/

/-- C4 counterexample: on the polynomial `5` (single term, exponent 0,
coefficient 5), Insert(0, 1) followed by Insert(0, −1) leaves a term with
exponent 0 — the cancellation law fails when a term with that exponent
already exists. -/
theorem insert_cancel_counterexample :
    poly_existsTermWithExp
      (poly_addTerm true (poly_addTerm true ⟨[⟨0, 5⟩], 1⟩ 0 1).2 0 (-1)).2 0 = true := by
  with_unfolding_all decide

theorem addTerm_cancel_appended (alloc : Bool) (p' : Poly) (ts : List PolyTerm) (e : Int)
    (c : Rat) (hterms : p'.terms = ts ++ [⟨e, c⟩]) (hall : ∀ t ∈ ts, t.exp ≠ e) :
    (poly_addTerm alloc p' e (-c)).2.terms = ts := by
  have hex : poly_existsTermWithExp p' e = true := by
    simp [poly_existsTermWithExp, hterms]
  have h1 : addCoeffAtFirst p'.terms e (-c) = ts ++ [⟨e, 0⟩] := by
    rw [hterms, addCoeffAtFirst_append_of_forall_ne _ _ _ _ hall]
    simp [addCoeffAtFirst]
  have h2 : coeffOfFirstWithExp (addCoeffAtFirst p'.terms e (-c)) e = 0 := by
    rw [h1, coeffOfFirstWithExp_append_of_forall_ne _ _ _ hall]
    simp [coeffOfFirstWithExp]
  have h3 : removeFirstWithExp (addCoeffAtFirst p'.terms e (-c)) e = ts := by
    rw [removeFirstWithExp_addCoeffAtFirst, hterms,
      removeFirstWithExp_append_of_forall_ne _ _ _ hall]
    simp [removeFirstWithExp]
  simp [poly_addTerm, hex, h2, h3]

/-- C4 amended: if no term with exponent `e` is present beforehand, then
Insert(e, c) followed by Insert(e, −c) leaves the polynomial with no term of
exponent `e` (for any allocation behaviour). -/
theorem insert_cancel_of_not_exists :
    ∀ (alloc : Bool) (p : Poly) (e : Int) (c : Rat),
      poly_existsTermWithExp p e = false →
      poly_existsTermWithExp (poly_addTerm alloc (poly_addTerm alloc p e c).2 e (-c)).2 e
        = false := by
  intro alloc p e c h
  have hall : ∀ t ∈ p.terms, t.exp ≠ e := (existsTermWithExp_eq_false_iff p e).1 h
  have hexF : ¬poly_existsTermWithExp p e = true := by simp [h]
  by_cases hc : c = 0
  · subst hc
    simp only [neg_zero]
    simp [poly_addTerm, hexF, h]
  · by_cases hcap : poly_getSize p = p.cap
    · cases alloc with
      | false =>
          have hfirst : (poly_addTerm false p e c).2 = p := by
            simp [poly_addTerm, hexF, hc, hcap, resize]
          rw [hfirst]
          have hsecond : (poly_addTerm false p e (-c)).2 = p := by
            simp [poly_addTerm, hexF, neg_ne_zero.2 hc, hcap, resize]
          rw [hsecond]
          exact h
      | true =>
          have hfirst : (poly_addTerm true p e c).2
              = { terms := p.terms ++ [⟨e, c⟩], cap := p.cap + 1 } := by
            simp [poly_addTerm, hexF, hc, hcap, resize]
          rw [hfirst]
          have := addTerm_cancel_appended true
            { terms := p.terms ++ [⟨e, c⟩], cap := p.cap + 1 } p.terms e c rfl hall
          rw [existsTermWithExp_eq_false_iff]
          intro t ht
          exact hall t (this ▸ ht)
    · have hfirst : (poly_addTerm alloc p e c).2
          = { terms := p.terms ++ [⟨e, c⟩], cap := p.cap } := by
        simp [poly_addTerm, hexF, hc, hcap]
      rw [hfirst]
      have := addTerm_cancel_appended alloc
        { terms := p.terms ++ [⟨e, c⟩], cap := p.cap } p.terms e c rfl hall
      rw [existsTermWithExp_eq_false_iff]
      intro t ht
      exact hall t (this ▸ ht)

/-- Witness for the amended C4 on the empty polynomial with e = 2, c = 7. -/
theorem insert_cancel_of_not_exists_witness :
    poly_existsTermWithExp
      (poly_addTerm true (poly_addTerm true poly_initDefault 2 7).2 2 (-7)).2 2 = false :=
  insert_cancel_of_not_exists true poly_initDefault 2 7 (by decide)

/-! ## Claim C9 — `poly_calcNthDeriv` with a non-positive count -/

/-- C9: on a non-empty polynomial with `n ≤ 0`, `poly_calcNthDeriv` returns
SUCCESS, reports `is-zero = false` and leaves the polynomial unchanged. -/
theorem calcNthDeriv_nonpos (p : Poly) (n : Int) (hp : p.terms ≠ []) (hn : n ≤ 0) :
    poly_calcNthDeriv p n = (Status.SUCCESS, p, false) := by
  have hs : poly_getSize p ≠ 0 := by
    simpa [poly_getSize, List.length_eq_zero] using hp
  have ht : n.toNat = 0 := Int.toNat_of_nonpos hn
  simp [poly_calcNthDeriv, hs, ht, nthDerivLoop]

/-- Witness for C9 at the polynomial `x` with n = −3. -/
theorem calcNthDeriv_nonpos_witness :
    poly_calcNthDeriv ⟨[⟨1, 1⟩], 1⟩ (-3) = (Status.SUCCESS, ⟨[⟨1, 1⟩], 1⟩, false) :=
  calcNthDeriv_nonpos ⟨[⟨1, 1⟩], 1⟩ (-3) (by decide) (by decide)

/-! ## Claim C1 — the nth-derivative is-zero flag -/

/-- C1: on the polynomial built from "x^2 + x + 1" with n = 3 the code leaves
the polynomial with no terms but reports `is-zero = false` — the flag is set
only when a differentiation step finds the polynomial already empty, not when
the last step empties it, contradicting the documented flag meaning. -/
theorem nthDeriv_flag_false_on_cubic_example :
    (poly_initPolyStr true "x^2 + x + 1").1 = some ⟨[⟨2, 1⟩, ⟨1, 1⟩, ⟨0, 1⟩], 3⟩ ∧
    poly_calcNthDeriv ⟨[⟨2, 1⟩, ⟨1, 1⟩, ⟨0, 1⟩], 3⟩ 3 = (Status.SUCCESS, ⟨[], 3⟩, false) := by
  with_unfolding_all decide

/-! ## Claim C6 — whitespace in `poly_isValidPolyStr` -/

/-- C6: the string "1<TAB>" contains a whitespace character other than space,
yet `poly_isValidPolyStr` accepts it — every `isspace` character is treated as
a separator, contradicting the documented space-only whitespace rule. -/
theorem isValidPolyStr_accepts_tab :
    ('\t' ∈ "1\t".data ∧ isspaceC '\t' = true ∧ '\t' ≠ ' ') ∧
    poly_isValidPolyStr "1\t" = true := by
  decide

/-! ## Claim C5 — render/re-parse round trip (see the end of the file) -/
/-! ## Claim C8 — `poly_calcXValue` -/

theorem foldl_add_sum (f : PolyTerm → Rat) (l : List PolyTerm) (a : Rat) :
    l.foldl (fun acc t => acc + f t) a = a + (l.map f).sum := by
  induction l generalizing a with
  | nil => simp
  | cons t ts ih => simp [List.foldl_cons, ih, add_assoc]

theorem calcXValue_eq_sum (p : Poly) (x : Rat) :
    calcXValue p x = (p.terms.map fun t => t.coeff * x ^ t.exp).sum := by
  unfold calcXValue
  have h := foldl_add_sum (fun t => if t.exp = 0 then t.coeff else t.coeff * x ^ t.exp) p.terms 0
  rw [h, zero_add]
  congr 1
  apply List.map_congr_left
  intro t _
  by_cases ht : t.exp = 0
  · simp [ht]
  · simp [ht]

/-- C8: `poly_calcXValue` fails exactly when the polynomial is empty (checked
first, reported through the has-no-terms flag alone) or when `x = 0` with a
negative exponent present (reported as plain failure with the flag false);
otherwise it returns the sum of `k·x^n` over all terms, where an
exponent-0 term contributes `k` even at `x = 0`; the polynomial is returned
unchanged in every case. -/
theorem calcXValue_cases :
    ∀ (p : Poly) (x : Rat),
      (p.terms = [] → poly_calcXValue p x = (Status.FAILURE, p, 0, true)) ∧
      (p.terms ≠ [] → x = 0 → poly_existsNegExp p = true →
        poly_calcXValue p x = (Status.FAILURE, p, 0, false)) ∧
      (p.terms ≠ [] → ¬(x = 0 ∧ poly_existsNegExp p = true) →
        poly_calcXValue p x =
          (Status.SUCCESS, p, (p.terms.map fun t => t.coeff * x ^ t.exp).sum, false)) := by
  intro p x
  refine ⟨?_, ?_, ?_⟩
  · intro h
    simp [poly_calcXValue, poly_getSize, h]
  · intro h hx hneg
    have hs : poly_getSize p ≠ 0 := by
      simpa [poly_getSize, List.length_eq_zero] using h
    simp [poly_calcXValue, hs, hx, hneg]
  · intro h hcond
    have hs : poly_getSize p ≠ 0 := by
      simpa [poly_getSize, List.length_eq_zero] using h
    simp [poly_calcXValue, hs, hcond, calcXValue_eq_sum]

/-- Witness for C8: the spec's scenario `x^2 + x + 1` at `x = 2` evaluates
to 7. -/
theorem calcXValue_cases_witness :
    poly_calcXValue ⟨[⟨2, 1⟩, ⟨1, 1⟩, ⟨0, 1⟩], 3⟩ 2 =
      (Status.SUCCESS, ⟨[⟨2, 1⟩, ⟨1, 1⟩, ⟨0, 1⟩], 3⟩, 7, false) := by
  have h := (calcXValue_cases ⟨[⟨2, 1⟩, ⟨1, 1⟩, ⟨0, 1⟩], 3⟩ 2).2.2 (by decide)
    (by norm_num)
  rw [h]
  with_unfolding_all decide

/-! ## Claim C7 — one integration step -/

theorem integLoop_true_fst (ts : List PolyTerm) :
    (integLoop true ts).1 = ts.map (fun t => (integrateTerm t).1) := by
  induction ts with
  | nil => rfl
  | cons t ts ih => simp [integLoop, ih]

theorem integLoop_spec (ts : List PolyTerm) (hnd : (ts.map PolyTerm.exp).Nodup) :
    integLoop false ts =
      ((ts.filter (fun t => t.exp ≠ -1)).map
          (fun t => (⟨t.exp + 1, t.coeff / ((t.exp + 1 : Int) : Rat)⟩ : PolyTerm)),
        ts.any (fun t => t.exp = -1),
        coeffOfFirstWithExp ts (-1)) := by
  induction ts with
  | nil => simp [integLoop, coeffOfFirstWithExp]
  | cons t ts ih =>
      rw [List.map_cons, List.nodup_cons] at hnd
      by_cases ht : t.exp = -1
      · have hall : ∀ u ∈ ts, u.exp ≠ -1 := by
          intro u hu he
          exact hnd.1 (ht ▸ he ▸ List.mem_map_of_mem PolyTerm.exp hu)
        have h1 : (integLoop true ts).1 = ts.map (fun u => (integrateTerm u).1) :=
          integLoop_true_fst ts
        have h2 : ts.map (fun u => (integrateTerm u).1) =
            ts.map (fun u => (⟨u.exp + 1, u.coeff / ((u.exp + 1 : Int) : Rat)⟩ : PolyTerm)) := by
          apply List.map_congr_left
          intro u hu
          simp [integrateTerm, hall u hu]
        have h3 : (t :: ts).filter (fun u => u.exp ≠ -1) = ts.filter (fun u => u.exp ≠ -1) := by
          simp [List.filter_cons, ht]
        have h4 : ts.filter (fun u => u.exp ≠ -1) = ts := by
          rw [List.filter_eq_self]
          intro u hu
          simpa using hall u hu
        have hstep : integLoop false (t :: ts) = ((integLoop true ts).1, true, t.coeff) := by
          simp [integLoop, ht]
        rw [hstep, h1, h2, h3, h4]
        simp [List.any_cons, ht, coeffOfFirstWithExp, List.find?_cons]
      · have hstep : integLoop false (t :: ts) =
            ((integrateTerm t).1 :: (integLoop false ts).1,
              (integLoop false ts).2.1, (integLoop false ts).2.2) := by
          simp [integLoop, ht]
        rw [hstep, ih hnd.2]
        simp [List.filter_cons, List.any_cons, ht, integrateTerm,
          coeffOfFirstWithExp, List.find?_cons]

/-- C7: on a valid non-empty polynomial, one integration step replaces each
term `(k, n)` with `n ≠ −1` by `(k/(n+1), n+1)`, removes the term with
exponent −1 (if present) while reporting its coefficient through the
flag/coefficient pair, and on an empty polynomial fails leaving everything
unchanged with flag false and coefficient 0. -/
theorem integrate_step_spec :
    ∀ p : Poly, polyInv p →
      (p.terms = [] → integratePoly p = (Status.FAILURE, p, false, 0)) ∧
      (p.terms ≠ [] →
        integratePoly p = (Status.SUCCESS,
          { p with terms := ((p.terms.filter (fun t => t.exp ≠ -1)).map
              (fun t => (⟨t.exp + 1, t.coeff / ((t.exp + 1 : Int) : Rat)⟩ : PolyTerm))) },
          p.terms.any (fun t => t.exp = -1),
          coeffOfFirstWithExp p.terms (-1))) := by
  intro p hinv
  constructor
  · intro h
    simp [integratePoly, poly_getSize, h]
  · intro h
    have hs : poly_getSize p ≠ 0 := by
      simpa [poly_getSize, List.length_eq_zero] using h
    simp [integratePoly, hs, integLoop_spec p.terms hinv.2]

/-- Witness for C7: the spec's scenario — integrating `2x^2 + 1 - 3x^-1`
gives `(2/3)x^3 + x` with the −1 term removed, flag true, coefficient −3. -/
theorem integrate_step_spec_witness :
    integratePoly ⟨[⟨2, 2⟩, ⟨0, 1⟩, ⟨-1, -3⟩], 3⟩ =
      (Status.SUCCESS, ⟨[⟨3, 2 / 3⟩, ⟨1, 1⟩], 3⟩, true, -3) := by
  have h := (integrate_step_spec ⟨[⟨2, 2⟩, ⟨0, 1⟩, ⟨-1, -3⟩], 3⟩
    (by with_unfolding_all decide)).2 (by decide)
  rw [h]
  with_unfolding_all decide

/-! ## Claim C2 — definite-integral error classification -/

theorem zeroInRange_iff (LB UB : Rat) :
    ((LB ≤ 0 ∧ 0 ≤ UB) ∨ (UB ≤ 0 ∧ 0 ≤ LB)) ↔ (min LB UB ≤ 0 ∧ 0 ≤ max LB UB) := by
  rcases le_total LB UB with h | h
  · rw [min_eq_left h, max_eq_right h]
    constructor
    · rintro (⟨h1, h2⟩ | ⟨h1, h2⟩)
      · exact ⟨h1, h2⟩
      · exact ⟨le_trans h h1, le_trans h2 h⟩
    · exact fun hh => Or.inl hh
  · rw [min_eq_right h, max_eq_left h]
    constructor
    · rintro (⟨h1, h2⟩ | ⟨h1, h2⟩)
      · exact ⟨le_trans h h1, le_trans h2 h⟩
      · exact ⟨h1, h2⟩
    · exact fun hh => Or.inr hh

/-- The list of negative exponents of a polynomial (in storage order). -/
def negExps (p : Poly) : List Int :=
  (p.terms.map PolyTerm.exp).filter (fun e => e < 0)

theorem negExps_eq (p : Poly) :
    negExps p = (p.terms.filter (fun t => t.exp < 0)).map PolyTerm.exp := by
  unfold negExps
  induction p.terms with
  | nil => rfl
  | cons t ts ih =>
      by_cases h : t.exp < 0 <;> simp [List.filter_cons, h, ih]

theorem getNumOfNegExps_eq (p : Poly) : getNumOfNegExps p = (negExps p).length := by
  rw [negExps_eq, List.length_map]
  rfl

theorem existsNegExp_iff (p : Poly) :
    poly_existsNegExp p = true ↔ ∃ t ∈ p.terms, t.exp < 0 := by
  simp [poly_existsNegExp]

theorem existsNegOne_iff_mem_negExps (p : Poly) :
    poly_existsTermWithExp p (-1) = true ↔ (-1 : Int) ∈ negExps p := by
  rw [existsTermWithExp_eq_true_iff]
  unfold negExps
  constructor
  · rintro ⟨t, ht, hte⟩
    refine List.mem_filter.2 ⟨hte ▸ List.mem_map_of_mem PolyTerm.exp ht, by decide⟩
  · intro hm
    rcases List.mem_map.1 (List.mem_filter.1 hm).1 with ⟨t, ht, hte⟩
    exact ⟨t, ht, hte⟩

theorem divErr_iff (p : Poly) (LB UB : Rat) (hinv : polyInv p) :
    defIntegralDivByZeroError p LB UB = true ↔
      ((∃ t ∈ p.terms, t.exp < 0) ∧ (min LB UB ≤ 0 ∧ 0 ≤ max LB UB) ∧
        (negExps p).toFinset ≠ {-1}) := by
  have hnd : (negExps p).Nodup := List.Nodup.filter _ hinv.2
  unfold defIntegralDivByZeroError
  by_cases hA : poly_existsNegExp p = true ∧ ((LB ≤ 0 ∧ 0 ≤ UB) ∨ (UB ≤ 0 ∧ 0 ≤ LB))
  · rw [if_pos hA]
    have hne : negExps p ≠ [] := by
      rcases (existsNegExp_iff p).1 hA.1 with ⟨t, ht, htneg⟩
      intro hcontra
      have : t.exp ∈ negExps p := List.mem_filter.2 ⟨List.mem_map_of_mem PolyTerm.exp ht,
        by simpa using htneg⟩
      simp [hcontra] at this
    have hcard : (negExps p).toFinset.card = (negExps p).length :=
      List.toFinset_card_of_nodup hnd
    by_cases h1 : getNumOfNegExps p = 1
    · rw [if_pos h1]
      rcases List.length_eq_one.1 (by rw [← getNumOfNegExps_eq]; exact h1) with ⟨a, ha⟩
      by_cases hm1 : poly_existsTermWithExp p (-1) = true
      · rw [if_pos hm1]
        have hmem : (-1 : Int) ∈ negExps p := (existsNegOne_iff_mem_negExps p).1 hm1
        have ha1 : a = -1 := by
          rw [ha] at hmem
          exact (by simpa using hmem : (-1 : Int) = a).symm
        simp only [Bool.false_eq_true, false_iff]
        rintro ⟨-, -, hfin⟩
        exact hfin (by rw [ha, ha1]; simp)
      · rw [if_neg hm1]
        have hmem : (-1 : Int) ∉ negExps p := fun hm =>
          hm1 ((existsNegOne_iff_mem_negExps p).2 hm)
        have ha1 : a ≠ -1 := by
          intro hcontra
          exact hmem (ha ▸ hcontra ▸ List.mem_singleton_self a)
        simp only [true_iff]
        refine ⟨(existsNegExp_iff p).1 hA.1, (zeroInRange_iff LB UB).1 hA.2, ?_⟩
        rw [ha]
        simp [ha1]
    · rw [if_neg h1]
      have hlen : 2 ≤ (negExps p).length := by
        rw [getNumOfNegExps_eq] at h1
        have h0 : (negExps p).length ≠ 0 := fun hz => hne (List.length_eq_zero.1 hz)
        omega
      simp only [true_iff]
      refine ⟨(existsNegExp_iff p).1 hA.1, (zeroInRange_iff LB UB).1 hA.2, ?_⟩
      intro hcontra
      rw [hcontra] at hcard
      simp at hcard
      omega
  · rw [if_neg hA]
    simp only [Bool.false_eq_true, false_iff]
    rintro ⟨hex, hrange, -⟩
    exact hA ⟨(existsNegExp_iff p).2 hex, (zeroInRange_iff LB UB).2 hrange⟩

theorem natErr_iff (p : Poly) (LB UB : Rat) :
    defIntegralNatLogError p LB UB = true ↔
      ((∃ t ∈ p.terms, t.exp = -1) ∧ (min LB UB ≤ 0 ∧ 0 ≤ max LB UB)) := by
  unfold defIntegralNatLogError
  rw [Bool.and_eq_true, existsTermWithExp_eq_true_iff, decide_eq_true_eq,
    zeroInRange_iff]

/-- C2: for a valid non-empty polynomial and any bounds, the div-by-zero flag
is set iff there is a negative exponent, 0 lies in [min(LB,UB), max(LB,UB)]
and the set of negative exponents is not exactly {−1}; the nat-log flag is set
iff a term with exponent −1 exists and 0 lies in that interval; both flags are
reported together when both predicates hold, and whenever either holds the
call fails with result 0, flag false, captured coefficient 0, the
has-no-terms flag false and the polynomial unchanged. -/
theorem defIntegral_error_classification :
    ∀ (p : Poly) (LB UB : Rat), polyInv p → p.terms ≠ [] →
      ((poly_calcDefIntegral p LB UB).divByZeroError = true ↔
        ((∃ t ∈ p.terms, t.exp < 0) ∧ (min LB UB ≤ 0 ∧ 0 ≤ max LB UB) ∧
          (negExps p).toFinset ≠ {-1})) ∧
      ((poly_calcDefIntegral p LB UB).natLogError = true ↔
        ((∃ t ∈ p.terms, t.exp = -1) ∧ (min LB UB ≤ 0 ∧ 0 ≤ max LB UB))) ∧
      ((defIntegralDivByZeroError p LB UB = true ∨ defIntegralNatLogError p LB UB = true) →
        poly_calcDefIntegral p LB UB =
          ⟨Status.FAILURE, p, 0, false, 0, false, defIntegralDivByZeroError p LB UB,
            defIntegralNatLogError p LB UB⟩) := by
  intro p LB UB hinv hne
  have hs : poly_getSize p ≠ 0 := by
    simpa [poly_getSize, List.length_eq_zero] using hne
  have hflags : (poly_calcDefIntegral p LB UB).divByZeroError
        = defIntegralDivByZeroError p LB UB ∧
      (poly_calcDefIntegral p LB UB).natLogError = defIntegralNatLogError p LB UB ∧
      ((defIntegralDivByZeroError p LB UB = true ∨ defIntegralNatLogError p LB UB = true) →
        poly_calcDefIntegral p LB UB =
          ⟨Status.FAILURE, p, 0, false, 0, false, defIntegralDivByZeroError p LB UB,
            defIntegralNatLogError p LB UB⟩) := by
    cases hD : defIntegralDivByZeroError p LB UB <;>
      cases hN : defIntegralNatLogError p LB UB <;>
        simp [poly_calcDefIntegral, hs, hD, hN]
  refine ⟨?_, ?_, hflags.2.2⟩
  · rw [hflags.1]
    exact divErr_iff p LB UB hinv
  · rw [hflags.2.1]
    exact natErr_iff p LB UB

/-- Witness for C2: the spec's scenario `x^-2 + x^-1` over [−3, 1] reports
both errors and computes nothing. -/
theorem defIntegral_error_classification_witness :
    poly_calcDefIntegral ⟨[⟨-2, 1⟩, ⟨-1, 1⟩], 2⟩ (-3) 1 =
      ⟨Status.FAILURE, ⟨[⟨-2, 1⟩, ⟨-1, 1⟩], 2⟩, 0, false, 0, false, true, true⟩ := by
  have h := (defIntegral_error_classification ⟨[⟨-2, 1⟩, ⟨-1, 1⟩], 2⟩ (-3) 1
    (by with_unfolding_all decide) (by decide)).2.2
    (by with_unfolding_all decide)
  rw [h]
  with_unfolding_all decide

/-! ## Claim C3 — invariant preservation -/

theorem polyInv_of_append (p : Poly) (h : polyInv p) (e : Int) (c : Rat) (hc : c ≠ 0)
    (hex : poly_existsTermWithExp p e = false) (cap' : Nat) :
    polyInv ⟨p.terms ++ [⟨e, c⟩], cap'⟩ := by
  have hall : ∀ t ∈ p.terms, t.exp ≠ e := (existsTermWithExp_eq_false_iff p e).1 hex
  constructor
  · intro t ht
    rcases List.mem_append.1 ht with ht | ht
    · exact h.1 t ht
    · rcases List.mem_singleton.1 ht with rfl
      exact hc
  · rw [List.map_append]
    simp only [List.map_cons, List.map_nil]
    rw [List.nodup_append]
    refine ⟨h.2, List.nodup_singleton e, ?_⟩
    intro a ha hb
    rcases List.mem_singleton.1 hb with rfl
    rcases List.mem_map.1 ha with ⟨t, ht, rfl⟩
    exact hall t ht rfl

theorem polyInv_addTerm (alloc : Bool) (p : Poly) (e : Int) (c : Rat) (h : polyInv p) :
    polyInv (poly_addTerm alloc p e c).2 := by
  by_cases hex : poly_existsTermWithExp p e = true
  · by_cases hz : coeffOfFirstWithExp (addCoeffAtFirst p.terms e c) e = 0
    · have hred : (poly_addTerm alloc p e c).2
          = { p with terms := removeFirstWithExp p.terms e } := by
        simp [poly_addTerm, hex, hz, removeFirstWithExp_addCoeffAtFirst]
      rw [hred]
      constructor
      · intro t ht
        exact h.1 t ((removeFirstWithExp_sublist p.terms e).mem ht)
      · rw [removeFirstWithExp_map_exp]
        exact h.2.erase e
    · have hred : (poly_addTerm alloc p e c).2
          = { p with terms := addCoeffAtFirst p.terms e c } := by
        simp [poly_addTerm, hex, hz]
      rw [hred]
      exact ⟨coeffOfFirstWithExp_ne_zero_forall p.terms e c h.1 hz,
        by rw [addCoeffAtFirst_map_exp]; exact h.2⟩
  · have hexF : poly_existsTermWithExp p e = false := by
      simpa using hex
    by_cases hc : c = 0
    · have hred : (poly_addTerm alloc p e c).2 = p := by
        simp [poly_addTerm, hex, hc]
      rw [hred]
      exact h
    · by_cases hcap : poly_getSize p = p.cap
      · cases alloc with
        | false =>
            have hred : (poly_addTerm false p e c).2 = p := by
              simp [poly_addTerm, hex, hc, hcap, resize]
            rw [hred]
            exact h
        | true =>
            have hred : (poly_addTerm true p e c).2
                = ⟨p.terms ++ [⟨e, c⟩], p.cap + 1⟩ := by
              simp [poly_addTerm, hex, hc, hcap, resize]
            rw [hred]
            exact polyInv_of_append p h e c hc hexF _
      · have hred : (poly_addTerm alloc p e c).2 = ⟨p.terms ++ [⟨e, c⟩], p.cap⟩ := by
          simp [poly_addTerm, hex, hc, hcap]
        rw [hred]
        exact polyInv_of_append p h e c hc hexF _

theorem polyInv_removeTerm (p : Poly) (e : Int) (h : polyInv p) :
    polyInv (poly_removeTermWithExp p e).2 := by
  by_cases hex : poly_existsTermWithExp p e = true
  · have hred : (poly_removeTermWithExp p e).2
        = { p with terms := removeFirstWithExp p.terms e } := by
      simp [poly_removeTermWithExp, hex]
    rw [hred]
    refine ⟨fun t ht => h.1 t ((removeFirstWithExp_sublist p.terms e).mem ht), ?_⟩
    rw [removeFirstWithExp_map_exp]
    exact h.2.erase e
  · have hred : (poly_removeTermWithExp p e).2 = p := by
      simp [poly_removeTermWithExp, hex]
    rw [hred]
    exact h

theorem polyInv_reset (p : Poly) : polyInv (poly_reset p) := by
  constructor <;> simp [poly_reset]

theorem diffTerm_of_ne_zero (t : PolyTerm) (h0 : t.coeff ≠ 0) (he : t.exp ≠ 0) :
    diffTerm t = ⟨t.exp - 1, t.coeff * (t.exp : Rat)⟩ ∧ t.coeff * (t.exp : Rat) ≠ 0 := by
  refine ⟨by simp [diffTerm, he], ?_⟩
  exact mul_ne_zero h0 (Int.cast_ne_zero.2 he)

theorem diff_kept_eq (ts : List PolyTerm) (h0 : ∀ t ∈ ts, t.coeff ≠ 0) :
    (ts.map diffTerm).filter (fun d => ¬(d.coeff = 0 ∧ d.exp = 0))
      = (ts.filter (fun t => t.exp ≠ 0)).map diffTerm := by
  induction ts with
  | nil => rfl
  | cons t ts ih =>
      have h0t : t.coeff ≠ 0 := h0 t (List.mem_cons_self t ts)
      have ihres := ih (fun u hu => h0 u (List.mem_cons_of_mem _ hu))
      by_cases he : t.exp = 0
      · have hdt : diffTerm t = ⟨0, 0⟩ := by simp [diffTerm, he]
        simpa [List.map_cons, List.filter_cons, hdt, he] using ihres
      · rcases diffTerm_of_ne_zero t h0t he with ⟨hd, hc⟩
        simpa [List.map_cons, List.filter_cons, hd, he, hc] using ihres

theorem take_newSize_eq {α : Type} (K rest : List α) (n : Nat)
    (hcase : K.length = n ∨ (K.length = n - 1 ∧ K.length < n)) :
    (K ++ rest).take (if K.length < n then n - 1 else n) = K := by
  rcases hcase with hc | ⟨hc, hlt⟩
  · rw [if_neg (by omega), ← hc, List.take_left]
  · rw [if_pos hlt, ← hc, List.take_left]

theorem diff_filter_length (p : Poly) (h : polyInv p) :
    (p.terms.filter (fun t => t.exp ≠ 0)).length = p.terms.length ∨
      ((p.terms.filter (fun t => t.exp ≠ 0)).length = p.terms.length - 1 ∧
        (p.terms.filter (fun t => t.exp ≠ 0)).length < p.terms.length) := by
  by_cases hzero : ∃ t ∈ p.terms, t.exp = 0
  · rcases hzero with ⟨t0, ht0, he0⟩
    rcases List.append_of_mem ht0 with ⟨l1, l2, hsplit⟩
    have hnd := h.2
    rw [hsplit, List.map_append, List.map_cons, List.nodup_middle, List.nodup_cons,
      ← List.map_append] at hnd
    have hall : ∀ u ∈ l1 ++ l2, u.exp ≠ 0 := by
      intro u hu hc
      exact hnd.1 (he0 ▸ hc ▸ List.mem_map_of_mem PolyTerm.exp hu)
    have hfilter : p.terms.filter (fun t => t.exp ≠ 0) = l1 ++ l2 := by
      rw [hsplit, List.filter_append, List.filter_cons]
      simp only [he0]
      rw [List.filter_eq_self.2 (fun u hu => by simpa using hall u (List.mem_append_left l2 hu)),
        List.filter_eq_self.2 (fun u hu => by simpa using hall u (List.mem_append_right l1 hu))]
      simp
    refine Or.inr ?_
    rw [hfilter, hsplit]
    simp only [List.length_append, List.length_cons]
    omega
  · refine Or.inl ?_
    rw [List.filter_eq_self.2 ?_]
    intro u hu
    have : u.exp ≠ 0 := fun hc => hzero ⟨u, hu, hc⟩
    simpa using this

theorem diffPoly_terms (p : Poly) (h : polyInv p) (hne : p.terms ≠ []) :
    diffPoly p = (Status.SUCCESS,
      { p with terms := (p.terms.filter (fun t => t.exp ≠ 0)).map diffTerm }) := by
  have hs : poly_getSize p ≠ 0 := by
    simpa [poly_getSize, List.length_eq_zero] using hne
  have hkept := diff_kept_eq p.terms h.1
  have hKlen : ((p.terms.filter (fun t => t.exp ≠ 0)).map diffTerm).length
      = (p.terms.filter (fun t => t.exp ≠ 0)).length := List.length_map _ _
  simp only [diffPoly, hs, if_false, List.length_map, hkept]
  rw [← hKlen,
    take_newSize_eq _ _ _ (by rw [hKlen]; exact diff_filter_length p h)]

theorem polyInv_diffPoly (p : Poly) (h : polyInv p) : polyInv (diffPoly p).2 := by
  by_cases hne : p.terms = []
  · have : diffPoly p = (Status.FAILURE, p) := by
      simp [diffPoly, poly_getSize, hne]
    rw [this]
    exact h
  · rw [diffPoly_terms p h hne]
    constructor
    · intro u hu
      rcases List.mem_map.1 hu with ⟨t, ht, rfl⟩
      have htf := List.mem_filter.1 ht
      have hexp : t.exp ≠ 0 := by simpa using htf.2
      rw [(diffTerm_of_ne_zero t (h.1 t htf.1) hexp).1]
      exact (diffTerm_of_ne_zero t (h.1 t htf.1) hexp).2
    · have hmap : ((p.terms.filter (fun t => t.exp ≠ 0)).map diffTerm).map PolyTerm.exp
          = ((p.terms.filter (fun t => t.exp ≠ 0)).map PolyTerm.exp).map (fun e => e - 1) := by
        rw [List.map_map, List.map_map]
        apply List.map_congr_left
        intro t ht
        have hexp : t.exp ≠ 0 := by simpa using (List.mem_filter.1 ht).2
        simp [Function.comp, diffTerm, hexp]
      rw [hmap]
      refine List.Nodup.map (fun a b hab => by omega) ?_
      exact h.2.sublist ((List.filter_sublist p.terms).map PolyTerm.exp)

theorem polyInv_integratePoly (p : Poly) (h : polyInv p) : polyInv (integratePoly p).2.1 := by
  by_cases hne : p.terms = []
  · have : integratePoly p = (Status.FAILURE, p, false, 0) := by
      simp [integratePoly, poly_getSize, hne]
    rw [this]
    exact h
  · have hs : poly_getSize p ≠ 0 := by
      simpa [poly_getSize, List.length_eq_zero] using hne
    have hred : (integratePoly p).2.1
        = { p with terms := ((p.terms.filter (fun t => t.exp ≠ -1)).map
            (fun t => (⟨t.exp + 1, t.coeff / ((t.exp + 1 : Int) : Rat)⟩ : PolyTerm))) } := by
      simp [integratePoly, hs, integLoop_spec p.terms h.2]
    rw [hred]
    constructor
    · intro u hu
      rcases List.mem_map.1 hu with ⟨t, ht, rfl⟩
      have htf := List.mem_filter.1 ht
      have hexp : t.exp ≠ -1 := by simpa using htf.2
      have hcast : ((t.exp + 1 : Int) : Rat) ≠ 0 := by
        rw [Int.cast_ne_zero]
        omega
      exact div_ne_zero (h.1 t htf.1) hcast
    · have hmap : (((p.terms.filter (fun t => t.exp ≠ -1)).map
            (fun t => (⟨t.exp + 1, t.coeff / ((t.exp + 1 : Int) : Rat)⟩ : PolyTerm))).map
              PolyTerm.exp)
          = ((p.terms.filter (fun t => t.exp ≠ -1)).map PolyTerm.exp).map (fun e => e + 1) := by
        rw [List.map_map, List.map_map]
        rfl
      rw [hmap]
      refine List.Nodup.map (fun a b hab => by omega) ?_
      exact h.2.sublist ((List.filter_sublist p.terms).map PolyTerm.exp)

theorem perm_cons_set (rest : List PolyTerm) (j : Nat) (t tk : PolyTerm)
    (hget : rest.get? j = some tk) : (t :: rest).Perm (tk :: rest.set j t) := by
  induction rest generalizing j with
  | nil => simp at hget
  | cons r rs ih =>
      cases j with
      | zero =>
          have : r = tk := by simpa using hget
          subst this
          simpa [List.set] using List.Perm.swap r t rs
      | succ j =>
          have hget' : rs.get? j = some tk := by simpa using hget
          have hperm : (t :: rs).Perm (tk :: rs.set j t) := ih j hget'
          refine ((List.Perm.swap r t rs).trans (hperm.cons r)).trans ?_
          exact List.Perm.swap tk r (rs.set j t)

theorem swapSel_perm (l : List PolyTerm) (k : Nat) : (swapSel l k).Perm l := by
  unfold swapSel
  cases l with
  | nil => exact List.Perm.refl []
  | cons t rest =>
      by_cases hk : k = 0
      · simp [hk]
      · simp only [hk, if_false]
        cases hget : rest.get? (k - 1) with
        | none => exact List.Perm.refl _
        | some tk => exact (perm_cons_set rest (k - 1) t tk hget).symm

theorem selSortFuel_perm : ∀ (fuel : Nat) (l : List PolyTerm), (selSortFuel fuel l).Perm l := by
  intro fuel
  induction fuel with
  | zero => exact fun l => List.Perm.refl l
  | succ f ih =>
      intro l
      cases l with
      | nil => exact List.Perm.refl _
      | cons t rest =>
          have hsw := swapSel_perm (t :: rest) (idxMaxAux rest t.exp 0 1)
          cases hsw' : swapSel (t :: rest) (idxMaxAux rest t.exp 0 1) with
          | nil =>
              rw [hsw'] at hsw
              exact absurd hsw.symm (by simp)
          | cons t' rest' =>
              rw [hsw'] at hsw
              have : selSortFuel (f + 1) (t :: rest) = t' :: selSortFuel f rest' := by
                rw [selSortFuel, hsw']
              rw [this]
              exact ((ih rest').cons t').trans hsw

theorem poly_sort_perm (p : Poly) : (poly_sort p).terms.Perm p.terms :=
  selSortFuel_perm p.terms.length p.terms

theorem polyInv_sort (p : Poly) (h : polyInv p) : polyInv (poly_sort p) := by
  have hperm := poly_sort_perm p
  constructor
  · intro t ht
    exact h.1 t (hperm.mem_iff.1 ht)
  · exact ((hperm.map PolyTerm.exp).nodup_iff).2 h.2

theorem copyLoop_inv (alloc : Bool) (l : List PolyTerm) :
    ∀ d : Poly, polyInv d → polyInv (copyLoop alloc l d).2 := by
  induction l with
  | nil => exact fun d hd => hd
  | cons t l ih =>
      intro d hd
      have hinv' : polyInv (poly_addTerm alloc d t.exp t.coeff).2 :=
        polyInv_addTerm alloc d t.exp t.coeff hd
      rcases hp : poly_addTerm alloc d t.exp t.coeff with ⟨s, d'⟩
      have hd' : polyInv d' := by rw [hp] at hinv'; exact hinv'
      cases s
      · have : copyLoop alloc (t :: l) d = copyLoop alloc l d' := by
          rw [copyLoop, hp]
        rw [this]
        exact ih d' hd'
      · have : copyLoop alloc (t :: l) d = (Status.FAILURE, d') := by
          rw [copyLoop, hp]
        rw [this]
        exact hd'

theorem polyInv_copy (alloc : Bool) (src dest : Poly) : polyInv (poly_copy alloc src dest).2 :=
  copyLoop_inv alloc src.terms (poly_reset dest) (polyInv_reset dest)

theorem newPolyLoop_inv (alloc : Bool) :
    ∀ (comps : List (List Char)) (op isF : Bool) (p : Poly), polyInv p →
      polyInv (newPolyLoop alloc comps op isF p).2 := by
  intro comps
  induction comps with
  | nil => exact fun _ _ p hp => hp
  | cons comp rest ih =>
      intro op isF p hp
      by_cases hop : comp = ['+'] ∨ comp = ['-']
      · have : newPolyLoop alloc (comp :: rest) op isF p
            = newPolyLoop alloc rest (comp = ['-']) isF p := by
          rw [newPolyLoop]
          simp [hop]
        rw [this]
        exact ih _ _ _ hp
      · by_cases hc : getCoeffOfTerm comp ≠ 0
        · have hinv' := polyInv_addTerm alloc p (getExpOfTerm comp)
            (if ¬isF ∧ op then -getCoeffOfTerm comp else getCoeffOfTerm comp) hp
          rcases hq : poly_addTerm alloc p (getExpOfTerm comp)
              (if ¬isF ∧ op then -getCoeffOfTerm comp else getCoeffOfTerm comp) with ⟨s, p'⟩
          have hp' : polyInv p' := by rw [hq] at hinv'; exact hinv'
          simp only [Bool.not_eq_true] at hq
          cases s
          · have hstep : newPolyLoop alloc (comp :: rest) op isF p
                = newPolyLoop alloc rest op false p' := by
              simp [newPolyLoop, hop, hc, hq]
            rw [hstep]
            exact ih _ _ _ hp'
          · have hstep : newPolyLoop alloc (comp :: rest) op isF p = (Status.FAILURE, p') := by
              simp [newPolyLoop, hop, hc, hq]
            rw [hstep]
            exact hp'
        · have hstep : newPolyLoop alloc (comp :: rest) op isF p
              = newPolyLoop alloc rest op false p := by
            simp [newPolyLoop, hop, hc]
          rw [hstep]
          exact ih _ _ _ hp

theorem initPolyStr_inv (alloc : Bool) (s : String) (q : Poly)
    (h : (poly_initPolyStr alloc s).1 = some q) : polyInv q := by
  unfold poly_initPolyStr at h
  by_cases hv : poly_isValidPolyStr s = true
  · simp only [hv, not_true, if_false] at h
    have hbase : polyInv ⟨[], getMaxNumOfTerms s.data⟩ := ⟨by simp, by simp⟩
    have hinv' := newPolyLoop_inv alloc (splitComps s.data) false true _ hbase
    rcases hq : newPoly alloc ⟨[], getMaxNumOfTerms s.data⟩ s.data with ⟨st, p'⟩
    have hp' : polyInv p' := by
      unfold newPoly at hq
      rw [hq] at hinv'
      exact hinv'
    rw [hq] at h
    cases st
    · simp only at h
      rw [← Option.some_inj.1 h]
      exact hp'
    · simp at h
  · simp [hv] at h

/-- C3: every core mutating operation — term insertion, term removal,
construction from a valid string, a differentiation step, an integration
step, sort, copy and reset — preserves the polynomial invariant (no zero
coefficients, no duplicate exponents). -/
theorem core_operations_preserve_invariant :
    ∀ (alloc : Bool) (p src : Poly) (e : Int) (c : Rat) (s : String) (q : Poly),
      polyInv p →
      (polyInv (poly_addTerm alloc p e c).2 ∧
        polyInv (poly_removeTermWithExp p e).2 ∧
        ((poly_initPolyStr alloc s).1 = some q → polyInv q) ∧
        polyInv (diffPoly p).2 ∧
        polyInv (integratePoly p).2.1 ∧
        polyInv (poly_sort p) ∧
        polyInv (poly_copy alloc src p).2 ∧
        polyInv (poly_reset p)) :=
  fun alloc p src e c s q hp =>
    ⟨polyInv_addTerm alloc p e c hp, polyInv_removeTerm p e hp,
      fun h => initPolyStr_inv alloc s q h, polyInv_diffPoly p hp,
      polyInv_integratePoly p hp, polyInv_sort p hp, polyInv_copy alloc src p,
      polyInv_reset p⟩

/-- Witness for C3: the polynomial constructed from "x^2 + x + 1" satisfies
the invariant. -/
theorem core_operations_preserve_invariant_witness :
    polyInv ⟨[⟨2, 1⟩, ⟨1, 1⟩, ⟨0, 1⟩], 3⟩ :=
  (core_operations_preserve_invariant true ⟨[⟨1, 2⟩], 1⟩ poly_initDefault 0 1 "x^2 + x + 1"
    ⟨[⟨2, 1⟩, ⟨1, 1⟩, ⟨0, 1⟩], 3⟩ (by with_unfolding_all decide)).2.2.1
    (by with_unfolding_all decide)

/-! ## Claim C5 — amended round trip: split/parse infrastructure -/

theorem takeWhile_append_all {p : Char → Bool} (l r : List Char) (h : ∀ c ∈ l, p c = true) :
    (l ++ r).takeWhile p = l ++ r.takeWhile p := by
  induction l with
  | nil => rfl
  | cons c l ih =>
      have hc := h c (List.mem_cons_self c l)
      simp only [List.cons_append, List.takeWhile_cons, hc, if_true]
      rw [ih (fun u hu => h u (List.mem_cons_of_mem _ hu))]

theorem dropWhile_append_all {p : Char → Bool} (l r : List Char) (h : ∀ c ∈ l, p c = true) :
    (l ++ r).dropWhile p = r.dropWhile p := by
  induction l with
  | nil => rfl
  | cons c l ih =>
      have hc := h c (List.mem_cons_self c l)
      simp only [List.cons_append, List.dropWhile_cons, hc, if_true]
      exact ih (fun u hu => h u (List.mem_cons_of_mem _ hu))

theorem takeWhile_head_false {p : Char → Bool} (c : Char) (l : List Char) (h : p c = false) :
    (c :: l).takeWhile p = [] := by
  simp [List.takeWhile_cons, h]

theorem dropWhile_head_false {p : Char → Bool} (c : Char) (l : List Char) (h : p c = false) :
    (c :: l).dropWhile p = c :: l := by
  simp [List.dropWhile_cons, h]

theorem takeWhile_eq_self_of_all {p : Char → Bool} (l : List Char) (h : ∀ c ∈ l, p c = true) :
    l.takeWhile p = l := by
  have := takeWhile_append_all l [] h
  simpa using this

theorem dropWhile_eq_nil_of_all {p : Char → Bool} (l : List Char) (h : ∀ c ∈ l, p c = true) :
    l.dropWhile p = [] := by
  have := dropWhile_append_all l [] h
  simpa using this

theorem splitCompsFuel_irrel :
    ∀ (n : Nat) (cs : List Char) (f1 f2 : Nat), cs.length ≤ n → cs.length < f1 →
      cs.length < f2 → splitCompsFuel f1 cs = splitCompsFuel f2 cs := by
  intro n
  induction n with
  | zero =>
      intro cs f1 f2 hn h1 h2
      have hcs : cs = [] := List.length_eq_zero.1 (Nat.le_zero.1 hn)
      subst hcs
      cases f1 with
      | zero => omega
      | succ g1 =>
          cases f2 with
          | zero => omega
          | succ g2 => rfl
  | succ n ih =>
      intro cs f1 f2 hn h1 h2
      cases f1 with
      | zero => omega
      | succ g1 =>
          cases f2 with
          | zero => omega
          | succ g2 =>
              rw [splitCompsFuel, splitCompsFuel]
              cases htk : (cs.dropWhile isspaceC).takeWhile (fun c => ¬isspaceC c) with
              | nil => rfl
              | cons c0 comp0 =>
                  have hdl : (cs.dropWhile isspaceC).length ≤ cs.length :=
                    (List.dropWhile_sublist isspaceC).length_le
                  have hsplit := List.takeWhile_append_dropWhile
                    (fun c => ¬isspaceC c) (cs.dropWhile isspaceC)
                  rw [htk] at hsplit
                  have hlen2 := congrArg List.length hsplit
                  simp only [List.length_append, List.length_cons] at hlen2
                  show (c0 :: comp0) :: splitCompsFuel g1
                        ((cs.dropWhile isspaceC).dropWhile (fun c => ¬isspaceC c))
                      = (c0 :: comp0) :: splitCompsFuel g2
                        ((cs.dropWhile isspaceC).dropWhile (fun c => ¬isspaceC c))
                  exact congrArg (fun l => (c0 :: comp0) :: l)
                    (ih ((cs.dropWhile isspaceC).dropWhile (fun c => ¬isspaceC c)) g1 g2
                      (by omega) (by omega) (by omega))

theorem splitCompsFuel_congr (f : Nat) (cs : List Char) (h : cs.length < f) :
    splitCompsFuel f cs = splitComps cs :=
  splitCompsFuel_irrel cs.length cs f (cs.length + 1) (le_refl _) h (by omega)

theorem splitComps_nil : splitComps [] = [] := rfl

theorem splitComps_cons_space (r : List Char) (c : Char) (hc : isspaceC c = true) :
    splitComps (c :: r) = splitComps r := by
  unfold splitComps
  rw [splitCompsFuel]
  rw [show (c :: r).dropWhile isspaceC = r.dropWhile isspaceC by
    simp [List.dropWhile_cons, hc]]
  conv_rhs => rw [splitCompsFuel]
  cases htk : (r.dropWhile isspaceC).takeWhile (fun c => ¬isspaceC c) with
  | nil => rfl
  | cons c0 comp0 =>
      have hdl : (r.dropWhile isspaceC).length ≤ r.length :=
        (List.dropWhile_sublist isspaceC).length_le
      have hsplit := List.takeWhile_append_dropWhile
        (fun c => ¬isspaceC c) (r.dropWhile isspaceC)
      rw [htk] at hsplit
      have hlen2 := congrArg List.length hsplit
      simp only [List.length_append, List.length_cons] at hlen2
      show (c0 :: comp0) :: splitCompsFuel (c :: r).length
            ((r.dropWhile isspaceC).dropWhile (fun c => ¬isspaceC c))
          = (c0 :: comp0) :: splitCompsFuel r.length
            ((r.dropWhile isspaceC).dropWhile (fun c => ¬isspaceC c))
      exact congrArg (fun l => (c0 :: comp0) :: l)
        (splitCompsFuel_irrel ((r.dropWhile isspaceC).dropWhile (fun c => ¬isspaceC c)).length
          ((r.dropWhile isspaceC).dropWhile (fun c => ¬isspaceC c)) (c :: r).length r.length
          (le_refl _) (by simp only [List.length_cons]; omega) (by omega))

theorem splitComps_token (t rest : List Char) (ht : t ≠ [])
    (hns : ∀ c ∈ t, isspaceC c = false)
    (hr : rest = [] ∨ ∃ r', rest = ' ' :: r') :
    splitComps (t ++ rest) = t :: splitComps rest := by
  rcases List.exists_cons_of_ne_nil ht with ⟨c0, t0, rfl⟩
  unfold splitComps
  rw [splitCompsFuel]
  have hdrop : ((c0 :: t0) ++ rest).dropWhile isspaceC = (c0 :: t0) ++ rest := by
    apply dropWhile_head_false
    exact hns c0 (List.mem_cons_self c0 t0)
  rw [hdrop]
  have htake : ((c0 :: t0) ++ rest).takeWhile (fun c => ¬isspaceC c) = c0 :: t0 := by
    rw [takeWhile_append_all _ _ (fun c hc => by simp [hns c hc])]
    rcases hr with rfl | ⟨r', rfl⟩
    · simp
    · rw [takeWhile_head_false ' ' r' (by simp [isspaceC]), List.append_nil]
  have hdrop2 : ((c0 :: t0) ++ rest).dropWhile (fun c => ¬isspaceC c) = rest := by
    rw [dropWhile_append_all _ _ (fun c hc => by simp [hns c hc])]
    rcases hr with rfl | ⟨r', rfl⟩
    · simp
    · exact dropWhile_head_false ' ' r' (by simp [isspaceC])
  rw [htake, hdrop2]
  show (c0 :: t0) :: splitCompsFuel ((c0 :: t0) ++ rest).length rest
      = (c0 :: t0) :: splitCompsFuel (rest.length + 1) rest
  exact congrArg (fun l => (c0 :: t0) :: l)
    (splitCompsFuel_irrel rest.length rest ((c0 :: t0) ++ rest).length (rest.length + 1)
      (le_refl _) (by simp only [List.length_append, List.length_cons]; omega) (by omega))

/-! ### Decimal printing and re-parsing of exponents -/

theorem digitChar_isdigit (d : Nat) : isdigitC (digitChar d) = true := by
  unfold digitChar
  split <;> decide

theorem digitVal_digitChar (d : Nat) (h : d < 10) : digitVal (digitChar d) = d := by
  interval_cases d <;> decide

theorem natToDec_small (n : Nat) (h : n < 10) : natToDec n = [digitChar n] := by
  unfold natToDec
  rw [natToDecFuel, if_pos h]

theorem natToDecFuel_spec (n : Nat) :
    ∀ (f : Nat) (acc : List Char), n < f → natToDecFuel f n acc = natToDec n ++ acc := by
  induction n using Nat.strong_induction_on with
  | _ n ih =>
      intro f acc hf
      cases f with
      | zero => omega
      | succ g =>
          rw [natToDecFuel]
          by_cases h10 : n < 10
          · rw [if_pos h10, natToDec_small n h10]
            rfl
          · rw [if_neg h10]
            have hdiv : n / 10 < n := Nat.div_lt_self (by omega) (by omega)
            rw [ih (n / 10) hdiv g _ (by omega)]
            have hexp : natToDec n = natToDec (n / 10) ++ [digitChar (n % 10)] := by
              unfold natToDec
              rw [natToDecFuel, if_neg h10]
              exact ih (n / 10) hdiv n _ (by omega)
            rw [hexp, List.append_assoc]
            rfl

theorem natToDec_expand (n : Nat) (h : ¬n < 10) :
    natToDec n = natToDec (n / 10) ++ [digitChar (n % 10)] := by
  unfold natToDec
  rw [natToDecFuel, if_neg h]
  exact natToDecFuel_spec (n / 10) n _ (by omega)

theorem natToDec_ne_nil (n : Nat) : natToDec n ≠ [] := by
  by_cases h : n < 10
  · rw [natToDec_small n h]
    simp
  · rw [natToDec_expand n h]
    simp

theorem natToDec_all_digits (n : Nat) : ∀ c ∈ natToDec n, isdigitC c = true := by
  induction n using Nat.strong_induction_on with
  | _ n ih =>
      by_cases h : n < 10
      · rw [natToDec_small n h]
        intro c hc
        rcases List.mem_singleton.1 hc with rfl
        exact digitChar_isdigit n
      · rw [natToDec_expand n h]
        intro c hc
        rcases List.mem_append.1 hc with hc | hc
        · exact ih (n / 10) (Nat.div_lt_self (by omega) (by omega)) c hc
        · rcases List.mem_singleton.1 hc with rfl
          exact digitChar_isdigit (n % 10)

theorem decDigitsToNat_append_one (xs : List Char) (c : Char) :
    decDigitsToNat (xs ++ [c]) = 10 * decDigitsToNat xs + digitVal c := by
  unfold decDigitsToNat
  rw [List.foldl_append]
  rfl

theorem decDigitsToNat_natToDec (n : Nat) : decDigitsToNat (natToDec n) = n := by
  induction n using Nat.strong_induction_on with
  | _ n ih =>
      by_cases h : n < 10
      · rw [natToDec_small n h]
        show 10 * 0 + digitVal (digitChar n) = n
        rw [digitVal_digitChar n h]
        omega
      · rw [natToDec_expand n h, decDigitsToNat_append_one,
          ih (n / 10) (Nat.div_lt_self (by omega) (by omega)),
          digitVal_digitChar (n % 10) (Nat.mod_lt n (by omega))]
        omega

/-! ### Character classification helpers -/

theorem isdigit_ne_space (c : Char) (h : isdigitC c = true) : c ≠ ' ' := by
  intro hc
  subst hc
  exact absurd h (by decide)

theorem isdigit_ne_minus (c : Char) (h : isdigitC c = true) : c ≠ '-' := by
  intro hc
  subst hc
  exact absurd h (by decide)

theorem isdigit_ne_dot (c : Char) (h : isdigitC c = true) : c ≠ '.' := by
  intro hc
  subst hc
  exact absurd h (by decide)

theorem isdigit_ne_x (c : Char) (h : isdigitC c = true) : c ≠ 'x' ∧ c ≠ 'X' := by
  constructor <;> intro hc <;> subst hc <;> exact absurd h (by decide)

theorem isdigit_not_isspace (c : Char) (h : isdigitC c = true) : isspaceC c = false := by
  have h1 : c ≠ ' ' := isdigit_ne_space c h
  have h2 : c ≠ '\t' := by intro hc; subst hc; exact absurd h (by decide)
  have h3 : c ≠ '\n' := by intro hc; subst hc; exact absurd h (by decide)
  have h4 : c ≠ '\x0b' := by intro hc; subst hc; exact absurd h (by decide)
  have h5 : c ≠ '\x0c' := by intro hc; subst hc; exact absurd h (by decide)
  have h6 : c ≠ '\r' := by intro hc; subst hc; exact absurd h (by decide)
  simp [isspaceC, h1, h2, h3, h4, h5, h6]

/-! ### Validity of rendered integer strings -/

theorem viLoop_digits (ds : List Char) (hall : ∀ c ∈ ds, isdigitC c = true) :
    ∀ (prev : Option Char) (negE : Bool), viLoop ds prev negE = true := by
  induction ds with
  | nil => intro prev negE; rfl
  | cons c cs ih =>
      intro prev negE
      have hc : isdigitC c = true := hall c (List.mem_cons_self c cs)
      have hsp : c ≠ ' ' := isdigit_ne_space c hc
      have hmn : c ≠ '-' := isdigit_ne_minus c hc
      simp only [viLoop, hc, hsp, hmn, true_or, not_true, not_false_iff, if_false, if_true]
      exact ih (fun u hu => hall u (List.mem_cons_of_mem _ hu)) (some c) negE

theorem countTokFuel_nil (f : Nat) : countTokFuel f [] = 0 := by
  cases f <;> rfl

theorem countTok_nospace (cs : List Char) (hne : cs ≠ []) (hns : ∀ c ∈ cs, c ≠ ' ') :
    countTokFuel (cs.length + 1) cs = 1 := by
  rcases List.exists_cons_of_ne_nil hne with ⟨c0, cs0, rfl⟩
  rw [countTokFuel]
  have hd : (c0 :: cs0).dropWhile (fun c => c = ' ') = c0 :: cs0 :=
    dropWhile_head_false c0 cs0 (by simp [hns c0 (List.mem_cons_self c0 cs0)])
  have htk : (c0 :: cs0).takeWhile (fun c => ¬c = ' ') = c0 :: cs0 :=
    takeWhile_eq_self_of_all _ (fun c hc => by simp [hns c hc])
  have hdw : (c0 :: cs0).dropWhile (fun c => ¬c = ' ') = [] :=
    dropWhile_eq_nil_of_all _ (fun c hc => by simp [hns c hc])
  rw [hd]
  rw [show ((c0 :: cs0).takeWhile (fun c => ¬c = ' ')) = c0 :: cs0 from htk]
  rw [hdw, countTokFuel_nil]

theorem inputsAreValidInts_digits (ds : List Char) (hne : ds ≠ [])
    (hall : ∀ c ∈ ds, isdigitC c = true) : inputsAreValidInts ds 1 = true := by
  rcases List.exists_cons_of_ne_nil hne with ⟨c0, ds0, rfl⟩
  have hc0 := hall c0 (List.mem_cons_self c0 ds0)
  have hlead : (c0 :: ds0).takeWhile isspaceC = [] :=
    takeWhile_head_false c0 ds0 (isdigit_not_isspace c0 hc0)
  have hrest : (c0 :: ds0).dropWhile isspaceC = c0 :: ds0 :=
    dropWhile_head_false c0 ds0 (isdigit_not_isspace c0 hc0)
  unfold inputsAreValidInts
  rw [hlead, hrest]
  simp only [List.all_nil, List.isEmpty_nil, List.isEmpty_cons, not_true, if_false,
    Bool.not_true, if_true, if_neg]
  rw [viLoop_digits _ hall none false]
  simp only [if_true]
  rw [countTok_nospace _ (by simp) (fun c hc => isdigit_ne_space c (hall c hc))]
  simp

theorem inputsAreValidInts_neg (ds : List Char) (hne : ds ≠ [])
    (hall : ∀ c ∈ ds, isdigitC c = true) : inputsAreValidInts ('-' :: ds) 1 = true := by
  rcases List.exists_cons_of_ne_nil hne with ⟨c0, ds0, rfl⟩
  have hc0 := hall c0 (List.mem_cons_self c0 ds0)
  have hlead : ('-' :: c0 :: ds0).takeWhile isspaceC = [] :=
    takeWhile_head_false _ _ (by decide)
  have hrest : ('-' :: c0 :: ds0).dropWhile isspaceC = '-' :: c0 :: ds0 :=
    dropWhile_head_false _ _ (by decide)
  unfold inputsAreValidInts
  rw [hlead, hrest]
  simp only [List.all_nil, List.isEmpty_nil, List.isEmpty_cons, not_true, if_false,
    Bool.not_true, if_true, if_neg]
  have hloop : viLoop ('-' :: c0 :: ds0) none false = true := by
    have ha : isdigitC '-' = false := by decide
    have hsp : (('-' : Char) = ' ') = False := by decide
    have hmn : (('-' : Char) = '-') = True := by decide
    have hsp0 : (c0 = ' ') = False := eq_false (isdigit_ne_space c0 hc0)
    have hmn0 : (c0 = '-') = False := eq_false (isdigit_ne_minus c0 hc0)
    simp only [viLoop, ha, hsp, hmn, hc0, hsp0, hmn0, Bool.false_eq_true, false_or, or_true,
      true_or, or_false, not_true, not_false_iff, if_false, if_true, ite_true, ite_false,
      if_pos trivial]
    exact viLoop_digits ds0 (fun u hu => hall u (List.mem_cons_of_mem _ hu)) (some c0) true
  rw [hloop]
  simp only [if_true]
  have hns : ∀ c ∈ '-' :: c0 :: ds0, c ≠ ' ' := by
    intro c hc
    rcases List.mem_cons.1 hc with rfl | hc
    · decide
    · exact isdigit_ne_space c (hall c hc)
  rw [countTok_nospace _ (by simp) hns]
  simp

theorem intToDec_ne_nil (e : Int) : intToDec e ≠ [] := by
  unfold intToDec
  by_cases h : e < 0
  · simp [h]
  · simp [h, natToDec_ne_nil]

theorem intToDec_chars (e : Int) : ∀ c ∈ intToDec e, isdigitC c = true ∨ c = '-' := by
  unfold intToDec
  by_cases h : e < 0 <;> simp only [h, if_true, if_false]
  · intro c hc
    rcases List.mem_cons.1 hc with rfl | hc
    · exact Or.inr rfl
    · exact Or.inl (natToDec_all_digits _ c hc)
  · intro c hc
    exact Or.inl (natToDec_all_digits _ c hc)

theorem atoiZ_intToDec (e : Int) : atoiZ (intToDec e) = e := by
  by_cases h : e < 0
  · have he : intToDec e = '-' :: natToDec (-e).toNat := by simp [intToDec, h]
    rw [he]
    have hred : atoiZ ('-' :: natToDec (-e).toNat)
        = -((decDigitsToNat ((natToDec (-e).toNat).takeWhile isdigitC) : Int)) := by
      simp [atoiZ]
    rw [hred, takeWhile_eq_self_of_all _ (natToDec_all_digits _), decDigitsToNat_natToDec,
      Int.toNat_of_nonneg (by omega)]
    omega
  · have he : intToDec e = natToDec e.toNat := by simp [intToDec, h]
    rw [he]
    rcases List.exists_cons_of_ne_nil (natToDec_ne_nil e.toNat) with ⟨c0, r0, hsplit⟩
    have hc0 : isdigitC c0 = true := by
      have hd := natToDec_all_digits e.toNat c0
      rw [hsplit] at hd
      exact hd (List.mem_cons_self c0 r0)
    rw [hsplit]
    have hred : atoiZ (c0 :: r0) = (decDigitsToNat ((c0 :: r0).takeWhile isdigitC) : Int) := by
      simp [atoiZ, isdigit_ne_minus c0 hc0]
    rw [hred, ← hsplit, takeWhile_eq_self_of_all _ (natToDec_all_digits _), decDigitsToNat_natToDec]
    omega

theorem inputsAreValidInts_intToDec (e : Int) : inputsAreValidInts (intToDec e) 1 = true := by
  by_cases h : e < 0
  · have he : intToDec e = '-' :: natToDec (-e).toNat := by simp [intToDec, h]
    rw [he]
    exact inputsAreValidInts_neg _ (natToDec_ne_nil _) (natToDec_all_digits _)
  · have he : intToDec e = natToDec e.toNat := by simp [intToDec, h]
    rw [he]
    exact inputsAreValidInts_digits _ (natToDec_ne_nil _) (natToDec_all_digits _)

/-! ### Faithfully printable coefficients -/

/-- A coefficient prints faithfully when `%g` of its absolute value is a plain
fixed-notation numeral: only digits and a decimal point, a valid double input
with and without a leading minus sign, made only of valid component
characters, and re-parsing it with the `strtod` model recovers the value
exactly.  The round-trip theorem assumes this of every stored coefficient. -/
def gFaithful (c : Rat) : Bool :=
  (fmtG |c|).all (fun ch => isdigitC ch || decide (ch = '.')) &&
  inputsAreValidDoubles (fmtG |c|) 1 &&
  inputsAreValidDoubles ('-' :: fmtG |c|) 1 &&
  allCompCharsAreValid (fmtG |c|) &&
  decide (strtodQ (fmtG |c|) = |c|)

theorem gFaithful_split (c : Rat) (h : gFaithful c = true) :
    (fmtG |c|).all (fun ch => isdigitC ch || decide (ch = '.')) = true ∧
    inputsAreValidDoubles (fmtG |c|) 1 = true ∧
    inputsAreValidDoubles ('-' :: fmtG |c|) 1 = true ∧
    allCompCharsAreValid (fmtG |c|) = true ∧
    strtodQ (fmtG |c|) = |c| := by
  unfold gFaithful at h
  simp only [Bool.and_eq_true, decide_eq_true_eq] at h
  tauto

theorem gFaithful_chars (c : Rat) (h : gFaithful c = true) :
    ∀ ch ∈ fmtG |c|, isdigitC ch = true ∨ ch = '.' := by
  intro ch hch
  have h1 := (gFaithful_split c h).1
  have h2 := List.all_eq_true.1 h1 ch hch
  rw [Bool.or_eq_true] at h2
  rcases h2 with hd | hd
  · exact Or.inl hd
  · exact Or.inr (of_decide_eq_true hd)

theorem gFaithful_validDoubles (c : Rat) (h : gFaithful c = true) :
    inputsAreValidDoubles (fmtG |c|) 1 = true :=
  (gFaithful_split c h).2.1

theorem gFaithful_validDoublesNeg (c : Rat) (h : gFaithful c = true) :
    inputsAreValidDoubles ('-' :: fmtG |c|) 1 = true :=
  (gFaithful_split c h).2.2.1

theorem gFaithful_compChars (c : Rat) (h : gFaithful c = true) :
    allCompCharsAreValid (fmtG |c|) = true :=
  (gFaithful_split c h).2.2.2.1

theorem gFaithful_parse (c : Rat) (h : gFaithful c = true) :
    strtodQ (fmtG |c|) = |c| :=
  (gFaithful_split c h).2.2.2.2

theorem inputsAreValidDoubles_nil (n : Nat) : inputsAreValidDoubles [] n = false := rfl

theorem gFaithful_ne_nil (c : Rat) (h : gFaithful c = true) : fmtG |c| ≠ [] := by
  intro hc
  have := gFaithful_validDoubles c h
  rw [hc, inputsAreValidDoubles_nil] at this
  exact absurd this (by decide)

theorem fmtG_of_neg (c : Rat) (h : c < 0) : fmtG c = '-' :: fmtG |c| := by
  have habs : |c| = -c := abs_of_neg h
  have h1 : ¬c = 0 := ne_of_lt h
  have h2 : ¬|c| = 0 := by rw [habs]; intro hx; exact h1 (by linarith)
  have h3 : ¬|c| < 0 := not_lt.2 (abs_nonneg c)
  rw [show fmtG c = '-' :: fmtGpos (-c) by simp [fmtG, h1, h]]
  rw [show fmtG |c| = fmtGpos |c| by simp [fmtG, h2, h3]]
  rw [habs]

theorem fmtG_of_pos (c : Rat) (h : 0 < c) : fmtG c = fmtG |c| := by
  rw [abs_of_pos h]

/-- Character classes that can occur in a rendered token. -/
theorem token_char_not_space (ch : Char)
    (h : isdigitC ch = true ∨ ch = '.' ∨ ch = '-' ∨ ch = 'x' ∨ ch = '^') :
    isspaceC ch = false := by
  rcases h with h | h | h | h | h
  · exact isdigit_not_isspace ch h
  all_goals (subst h; decide)

theorem token_char_ne_plus (ch : Char)
    (h : isdigitC ch = true ∨ ch = '.' ∨ ch = '-' ∨ ch = 'x' ∨ ch = '^') :
    ch ≠ '+' := by
  rcases h with h | h | h | h | h
  · exact fun hc => absurd h (by subst hc; decide)
  all_goals (subst h; decide)

theorem token_char_not_xX (ch : Char)
    (h : isdigitC ch = true ∨ ch = '.' ∨ ch = '-') :
    (decide ¬ch = 'x' && decide ¬ch = 'X') = true := by
  rcases h with h | h | h
  · rcases isdigit_ne_x ch h with ⟨h1, h2⟩
    simp [h1, h2]
  all_goals (subst h; decide)

theorem digitChar_valid (d : Nat) : validCompChars.contains (digitChar d) = true := by
  unfold digitChar
  split <;> decide

theorem natToDec_valid_chars (n : Nat) :
    ∀ c ∈ natToDec n, validCompChars.contains c = true := by
  induction n using Nat.strong_induction_on with
  | _ n ih =>
      by_cases h : n < 10
      · rw [natToDec_small n h]
        intro c hc
        rcases List.mem_singleton.1 hc with rfl
        exact digitChar_valid n
      · rw [natToDec_expand n h]
        intro c hc
        rcases List.mem_append.1 hc with hc | hc
        · exact ih (n / 10) (Nat.div_lt_self (by omega) (by omega)) c hc
        · rcases List.mem_singleton.1 hc with rfl
          exact digitChar_valid (n % 10)

theorem intToDec_valid_chars (e : Int) :
    ∀ c ∈ intToDec e, validCompChars.contains c = true := by
  intro c hc
  rcases intToDec_chars e c hc with h | h
  · unfold intToDec at hc
    by_cases hneg : e < 0
    · simp only [hneg, if_true] at hc
      rcases List.mem_cons.1 hc with rfl | hc
      · decide
      · exact natToDec_valid_chars _ c hc
    · simp only [hneg, if_false] at hc
      exact natToDec_valid_chars _ c hc
  · subst h
    decide

theorem strtodQ_neg_cons (ds : List Char) (hne : ds ≠ [])
    (hch : ∀ c ∈ ds, isdigitC c = true ∨ c = '.') :
    strtodQ ('-' :: ds) = -strtodQ ds := by
  rcases List.exists_cons_of_ne_nil hne with ⟨c0, r0, rfl⟩
  have hc0 : c0 ≠ '-' := by
    rcases hch c0 (List.mem_cons_self c0 r0) with h | h
    · exact isdigit_ne_minus c0 h
    · subst h; decide
  show (if ('-' : Char) = '-' then -decValQ (c0 :: r0) else decValQ ('-' :: c0 :: r0))
      = -(if c0 = '-' then -decValQ r0 else decValQ (c0 :: r0))
  rw [if_pos rfl, if_neg hc0]

/-! ### Shape of rendered tokens -/

theorem renderCoeff_shape (isFirst : Bool) (t : PolyTerm) (hc : t.coeff ≠ 0) :
    (renderCoeff isFirst t = [] ∧ t.exp ≠ 0 ∧
      (if isFirst = true then t.coeff = 1 else |t.coeff| = 1)) ∨
    (renderCoeff isFirst t = ['-'] ∧ t.exp ≠ 0 ∧ isFirst = true ∧ t.coeff = -1) ∨
    (renderCoeff isFirst t = fmtG |t.coeff| ∧ (isFirst = true → 0 < t.coeff)) ∨
    (renderCoeff isFirst t = '-' :: fmtG |t.coeff| ∧ isFirst = true ∧ t.coeff < 0) := by
  rcases lt_trichotomy t.coeff 0 with hlt | heq | hgt
  · -- negative coefficient
    by_cases he : t.exp = 0
    · cases isFirst with
      | true =>
          refine Or.inr (Or.inr (Or.inr ⟨?_, rfl, hlt⟩))
          simp [renderCoeff, he, fmtG_of_neg t.coeff hlt]
      | false =>
          refine Or.inr (Or.inr (Or.inl ⟨?_, by simp⟩))
          simp [renderCoeff, he]
    · cases isFirst with
      | true =>
          by_cases hm1 : t.coeff = -1
          · exact Or.inr (Or.inl ⟨by simp [renderCoeff, he, hm1], he, rfl, hm1⟩)
          · have h1 : t.coeff ≠ 1 := by intro hx; rw [hx] at hlt; norm_num at hlt
            refine Or.inr (Or.inr (Or.inr ⟨?_, rfl, hlt⟩))
            simp [renderCoeff, he, hm1, h1, fmtG_of_neg t.coeff hlt]
      | false =>
          by_cases hm1 : |t.coeff| = 1
          · exact Or.inl ⟨by simp [renderCoeff, he, hm1], he, by simp [hm1]⟩
          · refine Or.inr (Or.inr (Or.inl ⟨?_, by simp⟩))
            simp [renderCoeff, he, hm1]
  · exact absurd heq hc
  · -- positive coefficient
    by_cases he : t.exp = 0
    · cases isFirst with
      | true =>
          refine Or.inr (Or.inr (Or.inl ⟨?_, fun _ => hgt⟩))
          simp [renderCoeff, he, fmtG_of_pos t.coeff hgt]
      | false =>
          refine Or.inr (Or.inr (Or.inl ⟨?_, by simp⟩))
          simp [renderCoeff, he]
    · cases isFirst with
      | true =>
          by_cases h1 : t.coeff = 1
          · refine Or.inl ⟨?_, he, by simp [h1]⟩
            have hx : (1 : Rat) ≠ -1 := by norm_num
            simp [renderCoeff, he, h1, hx]
          · have hm1 : t.coeff ≠ -1 := by intro hx; rw [hx] at hgt; norm_num at hgt
            refine Or.inr (Or.inr (Or.inl ⟨?_, fun _ => hgt⟩))
            simp [renderCoeff, he, h1, hm1, fmtG_of_pos t.coeff hgt]
      | false =>
          by_cases hm1 : |t.coeff| = 1
          · exact Or.inl ⟨by simp [renderCoeff, he, hm1], he, by simp [hm1]⟩
          · refine Or.inr (Or.inr (Or.inl ⟨?_, by simp⟩))
            simp [renderCoeff, he, hm1]

theorem renderXPart_shape (t : PolyTerm) :
    (renderXPart t = [] ∧ t.exp = 0) ∨
    (renderXPart t = ['x'] ∧ t.exp = 1) ∨
    (renderXPart t = 'x' :: '^' :: intToDec t.exp ∧ t.exp ≠ 0 ∧ t.exp ≠ 1) := by
  by_cases he : t.exp = 0
  · exact Or.inl ⟨by simp [renderXPart, he], he⟩
  · by_cases h1 : t.exp = 1
    · exact Or.inr (Or.inl ⟨by simp [renderXPart, he, h1], h1⟩)
    · exact Or.inr (Or.inr ⟨by simp [renderXPart, he, h1], he, h1⟩)

theorem renderCoeff_chars (isFirst : Bool) (t : PolyTerm) (hc : t.coeff ≠ 0)
    (hg : gFaithful t.coeff = true) :
    ∀ ch ∈ renderCoeff isFirst t, isdigitC ch = true ∨ ch = '.' ∨ ch = '-' := by
  rcases renderCoeff_shape isFirst t hc with ⟨hr, -⟩ | ⟨hr, -⟩ | ⟨hr, -⟩ | ⟨hr, -⟩ <;> rw [hr]
  · simp
  · intro ch hch
    rcases List.mem_singleton.1 hch with rfl
    exact Or.inr (Or.inr rfl)
  · intro ch hch
    rcases gFaithful_chars t.coeff hg ch hch with h | h
    · exact Or.inl h
    · exact Or.inr (Or.inl h)
  · intro ch hch
    rcases List.mem_cons.1 hch with rfl | hch
    · exact Or.inr (Or.inr rfl)
    · rcases gFaithful_chars t.coeff hg ch hch with h | h
      · exact Or.inl h
      · exact Or.inr (Or.inl h)

theorem renderXPart_chars (t : PolyTerm) :
    ∀ ch ∈ renderXPart t, isdigitC ch = true ∨ ch = '-' ∨ ch = 'x' ∨ ch = '^' := by
  rcases renderXPart_shape t with ⟨hr, -⟩ | ⟨hr, -⟩ | ⟨hr, -⟩ <;> rw [hr]
  · simp
  · intro ch hch
    rcases List.mem_singleton.1 hch with rfl
    exact Or.inr (Or.inr (Or.inl rfl))
  · intro ch hch
    rcases List.mem_cons.1 hch with rfl | hch
    · exact Or.inr (Or.inr (Or.inl rfl))
    · rcases List.mem_cons.1 hch with rfl | hch
      · exact Or.inr (Or.inr (Or.inr rfl))
      · rcases intToDec_chars t.exp ch hch with h | h
        · exact Or.inl h
        · exact Or.inr (Or.inl h)

theorem token_chars (isFirst : Bool) (t : PolyTerm) (hc : t.coeff ≠ 0)
    (hg : gFaithful t.coeff = true) :
    ∀ ch ∈ renderCoeff isFirst t ++ renderXPart t,
      isdigitC ch = true ∨ ch = '.' ∨ ch = '-' ∨ ch = 'x' ∨ ch = '^' := by
  intro ch hch
  rcases List.mem_append.1 hch with hch | hch
  · rcases renderCoeff_chars isFirst t hc hg ch hch with h | h | h
    · exact Or.inl h
    · exact Or.inr (Or.inl h)
    · exact Or.inr (Or.inr (Or.inl h))
  · rcases renderXPart_chars t ch hch with h | h | h | h
    · exact Or.inl h
    · exact Or.inr (Or.inr (Or.inl h))
    · exact Or.inr (Or.inr (Or.inr (Or.inl h)))
    · exact Or.inr (Or.inr (Or.inr (Or.inr h)))

theorem token_no_space (isFirst : Bool) (t : PolyTerm) (hc : t.coeff ≠ 0)
    (hg : gFaithful t.coeff = true) :
    ∀ ch ∈ renderCoeff isFirst t ++ renderXPart t, isspaceC ch = false := by
  intro ch hch
  apply token_char_not_space
  rcases token_chars isFirst t hc hg ch hch with h | h | h | h | h
  · exact Or.inl h
  · exact Or.inr (Or.inl h)
  · exact Or.inr (Or.inr (Or.inl h))
  · exact Or.inr (Or.inr (Or.inr (Or.inl h)))
  · exact Or.inr (Or.inr (Or.inr (Or.inr h)))

theorem token_ne_nil (isFirst : Bool) (t : PolyTerm) (hc : t.coeff ≠ 0)
    (hg : gFaithful t.coeff = true) :
    renderCoeff isFirst t ++ renderXPart t ≠ [] := by
  intro hnil
  rw [List.append_eq_nil] at hnil
  rcases renderXPart_shape t with ⟨-, he⟩ | ⟨hr, -⟩ | ⟨hr, -⟩
  · rcases renderCoeff_shape isFirst t hc with ⟨-, he2, -⟩ | ⟨hr2, -⟩ | ⟨hr2, -⟩ | ⟨hr2, -⟩
    · exact he2 he
    · rw [hr2] at hnil; simp at hnil
    · rw [hr2] at hnil
      exact gFaithful_ne_nil t.coeff hg hnil.1
    · rw [hr2] at hnil; simp at hnil
  · rw [hr] at hnil; simp at hnil
  · rw [hr] at hnil; simp at hnil

theorem coeff_char_pred (ch : Char) (h : isdigitC ch = true ∨ ch = '.' ∨ ch = '-') :
    decide (ch ≠ 'x' ∧ ch ≠ 'X') = true := by
  apply decide_eq_true
  rcases h with h | h | h
  · exact ⟨(isdigit_ne_x ch h).1, (isdigit_ne_x ch h).2⟩
  all_goals (subst h; exact ⟨by decide, by decide⟩)

theorem token_split (isFirst : Bool) (t : PolyTerm) (hc : t.coeff ≠ 0)
    (hg : gFaithful t.coeff = true) :
    (renderCoeff isFirst t ++ renderXPart t).takeWhile (fun c => c ≠ 'x' ∧ c ≠ 'X')
        = renderCoeff isFirst t ∧
      (renderCoeff isFirst t ++ renderXPart t).dropWhile (fun c => c ≠ 'x' ∧ c ≠ 'X')
        = renderXPart t := by
  have hall : ∀ c ∈ renderCoeff isFirst t, decide (c ≠ 'x' ∧ c ≠ 'X') = true :=
    fun c hch => coeff_char_pred c (renderCoeff_chars isFirst t hc hg c hch)
  have hx : decide (('x' : Char) ≠ 'x' ∧ ('x' : Char) ≠ 'X') = false := by decide
  constructor
  · rw [takeWhile_append_all _ _ hall]
    rcases renderXPart_shape t with ⟨hr, -⟩ | ⟨hr, -⟩ | ⟨hr, -⟩ <;> rw [hr]
    · simp
    · rw [takeWhile_head_false _ _ hx, List.append_nil]
    · rw [takeWhile_head_false _ _ hx, List.append_nil]
  · rw [dropWhile_append_all _ _ hall]
    rcases renderXPart_shape t with ⟨hr, -⟩ | ⟨hr, -⟩ | ⟨hr, -⟩ <;> rw [hr]
    · simp
    · exact dropWhile_head_false _ _ hx
    · exact dropWhile_head_false _ _ hx

theorem fmtG_abs_ne_minus_singleton (c : Rat) (hg : gFaithful c = true) :
    fmtG |c| ≠ ['-'] := by
  intro hx
  have hm := gFaithful_chars c hg '-' (by rw [hx]; exact List.mem_singleton_self '-')
  rcases hm with h | h
  · exact absurd h (by decide)
  · exact absurd h (by decide)

theorem isEmpty_false_of_ne_nil (l : List Char) (h : l ≠ []) : l.isEmpty = false := by
  cases l with
  | nil => exact absurd rfl h
  | cons a l => rfl

theorem getCoeffOfTerm_token (isFirst : Bool) (t : PolyTerm) (hc : t.coeff ≠ 0)
    (hg : gFaithful t.coeff = true) :
    getCoeffOfTerm (renderCoeff isFirst t ++ renderXPart t)
      = (if isFirst = true then t.coeff else |t.coeff|) := by
  have hne := gFaithful_ne_nil t.coeff hg
  have hnm := fmtG_abs_ne_minus_singleton t.coeff hg
  have habs : ¬|strtodQ (fmtG |t.coeff|)| = 0 := by
    rw [gFaithful_parse t.coeff hg, abs_abs]
    exact abs_ne_zero.2 hc
  simp only [getCoeffOfTerm]
  rw [(token_split isFirst t hc hg).1]
  rcases renderCoeff_shape isFirst t hc with ⟨hr, -, hp⟩ | ⟨hr, -, hf, hp⟩ |
      ⟨hr, hp⟩ | ⟨hr, hf, hp⟩ <;> rw [hr]
  · rw [if_pos (show (([] : List Char).isEmpty = true) from rfl)]
    cases isFirst with
    | true =>
        rw [if_pos rfl] at hp ⊢
        exact hp.symm
    | false =>
        rw [if_neg (by simp)] at hp ⊢
        exact hp.symm
  · rw [if_neg (by simp), if_pos rfl, hf, if_pos rfl, hp]
  · rw [isEmpty_false_of_ne_nil _ hne, if_neg (by simp), if_neg hnm, if_neg habs,
      gFaithful_parse t.coeff hg]
    cases isFirst with
    | true =>
        have hpos : 0 < t.coeff := hp rfl
        rw [if_pos rfl, abs_of_pos hpos]
    | false => rw [if_neg (by simp)]
  · have hdchars := gFaithful_chars t.coeff hg
    have hstr : strtodQ ('-' :: fmtG |t.coeff|) = -|t.coeff| := by
      rw [strtodQ_neg_cons _ hne hdchars, gFaithful_parse t.coeff hg]
    have hnegabs : -|t.coeff| = t.coeff := by
      rw [abs_of_neg hp]
      ring
    have hconsne : ('-' :: fmtG |t.coeff|) ≠ ['-'] := by
      intro hx
      rw [List.cons_eq_cons] at hx
      exact hne hx.2
    rw [isEmpty_false_of_ne_nil _ (List.cons_ne_nil _ _), if_neg (by simp), if_neg hconsne,
      hstr]
    rw [if_neg (by rw [abs_neg, abs_abs]; exact abs_ne_zero.2 hc), hnegabs, hf, if_pos rfl]

theorem getExpOfTerm_token (isFirst : Bool) (t : PolyTerm) (hc : t.coeff ≠ 0)
    (hg : gFaithful t.coeff = true) :
    getExpOfTerm (renderCoeff isFirst t ++ renderXPart t) = t.exp := by
  simp only [getExpOfTerm]
  rw [(token_split isFirst t hc hg).2]
  rcases renderXPart_shape t with ⟨hr, he⟩ | ⟨hr, he⟩ | ⟨hr, -, -⟩ <;> rw [hr]
  · exact he.symm
  · exact he.symm
  · exact atoiZ_intToDec t.exp

theorem afterXCheck_xpart (t : PolyTerm) (hne : t.exp ≠ 0) :
    afterXCheck (renderXPart t) = true := by
  rcases renderXPart_shape t with ⟨-, he⟩ | ⟨hr, -⟩ | ⟨hr, -, -⟩
  · exact absurd he hne
  · rw [hr]
    rfl
  · rw [hr]
    show (if ('^' : Char) ≠ '^' then false else inputsAreValidInts (intToDec t.exp) 1) = true
    rw [if_neg (by simp)]
    exact inputsAreValidInts_intToDec t.exp

theorem token_validChars (isFirst : Bool) (t : PolyTerm) (hc : t.coeff ≠ 0)
    (hg : gFaithful t.coeff = true) :
    allCompCharsAreValid (renderCoeff isFirst t ++ renderXPart t) = true := by
  unfold allCompCharsAreValid
  rw [List.all_eq_true]
  intro ch hch
  rcases List.mem_append.1 hch with hch | hch
  · rcases renderCoeff_shape isFirst t hc with ⟨hr, -⟩ | ⟨hr, -⟩ | ⟨hr, -⟩ | ⟨hr, -⟩ <;>
      rw [hr] at hch
    · simp at hch
    · rcases List.mem_singleton.1 hch with rfl
      decide
    · have := gFaithful_compChars t.coeff hg
      unfold allCompCharsAreValid at this
      exact List.all_eq_true.1 this ch hch
    · rcases List.mem_cons.1 hch with rfl | hch
      · decide
      · have := gFaithful_compChars t.coeff hg
        unfold allCompCharsAreValid at this
        exact List.all_eq_true.1 this ch hch
  · rcases renderXPart_shape t with ⟨hr, -⟩ | ⟨hr, -⟩ | ⟨hr, -, -⟩ <;> rw [hr] at hch
    · simp at hch
    · rcases List.mem_singleton.1 hch with rfl
      decide
    · rcases List.mem_cons.1 hch with rfl | hch
      · decide
      · rcases List.mem_cons.1 hch with rfl | hch
        · decide
        · exact intToDec_valid_chars t.exp ch hch

theorem validDoubles_dot_false : inputsAreValidDoubles ['.'] 1 = false := by decide

theorem fmtG_singleton_digit (c : Rat) (hg : gFaithful c = true) (ch : Char)
    (hs : fmtG |c| = [ch]) : isdigitC ch = true := by
  rcases gFaithful_chars c hg ch (by rw [hs]; exact List.mem_singleton_self ch) with h | h
  · exact h
  · subst h
    have := gFaithful_validDoubles c hg
    rw [hs, validDoubles_dot_false] at this
    exact absurd this (by decide)

theorem isValidComp_token (isFirst : Bool) (t : PolyTerm) (hc : t.coeff ≠ 0)
    (hg : gFaithful t.coeff = true) :
    isValidComp (renderCoeff isFirst t ++ renderXPart t) = true := by
  have hvchars := token_validChars isFirst t hc hg
  have hts := token_split isFirst t hc hg
  have hne := gFaithful_ne_nil t.coeff hg
  unfold isValidComp
  rw [hvchars]
  rw [if_neg (by simp)]
  by_cases hlen : (renderCoeff isFirst t ++ renderXPart t).length = 1
  · rw [if_pos hlen]
    rcases List.length_eq_one.1 hlen with ⟨ch, hch⟩
    have hclass : ch = 'x' ∨ isdigitC ch = true := by
      rcases renderXPart_shape t with ⟨hxp, hexp⟩ | ⟨hxp, -⟩ | ⟨hxp, -, -⟩
      · -- constant term: token = renderCoeff
        rw [hxp, List.append_nil] at hch
        rcases renderCoeff_shape isFirst t hc with ⟨-, he2, -⟩ | ⟨-, he2, -⟩ |
            ⟨hr2, -⟩ | ⟨hr2, -⟩
        · exact absurd hexp he2
        · exact absurd hexp he2
        · rw [hr2] at hch
          exact Or.inr (fmtG_singleton_digit t.coeff hg ch hch)
        · rw [hr2] at hch
          rw [List.cons_eq_cons] at hch
          exact absurd hch.2 hne
      · -- token ends in the single character 'x'
        rw [hxp] at hch
        cases hrc : renderCoeff isFirst t with
        | nil =>
            rw [hrc, List.nil_append] at hch
            rw [List.cons_eq_cons] at hch
            exact Or.inl hch.1.symm
        | cons a l =>
            rw [hrc] at hch
            have := congrArg List.length hch
            simp [List.length_append] at this
      · rw [hxp] at hch
        have := congrArg List.length hch
        simp [List.length_append] at this
        omega
    rw [hch]
    rcases hclass with rfl | hd
    · simp
    · simp [hd]
  · rw [if_neg hlen, hts.1, hts.2]
    rcases renderCoeff_shape isFirst t hc with ⟨hr, hexpne, -⟩ | ⟨hr, hexpne, -, -⟩ |
        ⟨hr, -⟩ | ⟨hr, -, -⟩ <;> rw [hr]
    · -- elided coefficient: whole token is the x-part
      rw [if_neg (by simp)]
      exact afterXCheck_xpart t hexpne
    · -- bare minus coefficient
      rw [if_pos (by simp)]
      rw [if_neg (by simp)]
      have hxpne : ¬(renderXPart t).isEmpty = true := by
        rcases renderXPart_shape t with ⟨-, he⟩ | ⟨hr2, -⟩ | ⟨hr2, -, -⟩
        · exact absurd he hexpne
        · rw [hr2]; simp
        · rw [hr2]; simp
      rw [if_neg hxpne]
      exact afterXCheck_xpart t hexpne
    · -- plain %g coefficient
      rw [if_pos (by simp [isEmpty_false_of_ne_nil _ hne])]
      rw [if_neg (by simp [gFaithful_validDoubles t.coeff hg])]
      rcases renderXPart_shape t with ⟨hr2, -⟩ | ⟨hr2, hexp1⟩ | ⟨hr2, hexpne, -⟩
      · rw [hr2]
        simp
      · rw [hr2, if_neg (by simp), ← hr2]
        exact afterXCheck_xpart t (by rw [hexp1]; decide)
      · rw [hr2, if_neg (by simp), ← hr2]
        exact afterXCheck_xpart t hexpne
    · -- minus-prefixed %g coefficient
      rw [if_pos (by simp)]
      rw [if_neg (by simp [gFaithful_validDoublesNeg t.coeff hg])]
      rcases renderXPart_shape t with ⟨hr2, -⟩ | ⟨hr2, hexp1⟩ | ⟨hr2, hexpne, -⟩
      · rw [hr2]
        simp
      · rw [hr2, if_neg (by simp), ← hr2]
        exact afterXCheck_xpart t (by rw [hexp1]; decide)
      · rw [hr2, if_neg (by simp), ← hr2]
        exact afterXCheck_xpart t hexpne

/-- The component strings that splitting the rendered text of a term list
produces: each term contributes one token, separated by sign-operator
components. -/
def renderComps : Bool → List PolyTerm → List (List Char)
  | _, [] => []
  | isFirst, [t] => [renderCoeff isFirst t ++ renderXPart t]
  | isFirst, t :: u :: ts =>
      (renderCoeff isFirst t ++ renderXPart t) ::
        (if u.coeff < 0 then ['-'] else ['+']) :: renderComps false (u :: ts)

theorem splitComps_renderTerms (isFirst : Bool) (ts : List PolyTerm)
    (h : ∀ t ∈ ts, t.coeff ≠ 0 ∧ gFaithful t.coeff = true) :
    splitComps (renderTerms isFirst ts) = renderComps isFirst ts := by
  induction ts generalizing isFirst with
  | nil => rfl
  | cons t rest ih =>
    have ht := h t (List.mem_cons_self t rest)
    cases rest with
    | nil =>
        show splitComps (renderCoeff isFirst t ++ renderXPart t) = _
        rw [show renderCoeff isFirst t ++ renderXPart t
            = (renderCoeff isFirst t ++ renderXPart t) ++ [] from (List.append_nil _).symm]
        rw [splitComps_token _ [] (token_ne_nil isFirst t ht.1 ht.2)
          (token_no_space isFirst t ht.1 ht.2) (Or.inl rfl)]
        rfl
    | cons u ts2 =>
        have hrec : ∀ t ∈ u :: ts2, t.coeff ≠ 0 ∧ gFaithful t.coeff = true :=
          fun v hv => h v (List.mem_cons_of_mem t hv)
        have hassoc : renderTerms isFirst (t :: u :: ts2)
            = (renderCoeff isFirst t ++ renderXPart t)
              ++ (renderSep u ++ renderTerms false (u :: ts2)) := by
          show renderCoeff isFirst t ++ renderXPart t ++ renderSep u
              ++ renderTerms false (u :: ts2) = _
          simp [List.append_assoc]
        by_cases hu : u.coeff < 0
        · have hsep : renderSep u = [' ', '-', ' '] := by simp [renderSep, hu]
          rw [hassoc, splitComps_token _ _ (token_ne_nil isFirst t ht.1 ht.2)
            (token_no_space isFirst t ht.1 ht.2)
            (Or.inr ⟨'-' :: ' ' :: renderTerms false (u :: ts2), by rw [hsep]; rfl⟩)]
          rw [hsep]
          rw [show ([' ', '-', ' '] ++ renderTerms false (u :: ts2))
              = ' ' :: ('-' :: ' ' :: renderTerms false (u :: ts2)) from rfl]
          rw [splitComps_cons_space _ ' ' (by decide)]
          rw [show ('-' :: ' ' :: renderTerms false (u :: ts2))
              = ['-'] ++ (' ' :: renderTerms false (u :: ts2)) from rfl]
          rw [splitComps_token ['-'] _ (by decide) (by decide)
            (Or.inr ⟨renderTerms false (u :: ts2), rfl⟩)]
          rw [splitComps_cons_space _ ' ' (by decide)]
          rw [ih false hrec]
          simp [renderComps, hu]
        · have hsep : renderSep u = [' ', '+', ' '] := by simp [renderSep, hu]
          rw [hassoc, splitComps_token _ _ (token_ne_nil isFirst t ht.1 ht.2)
            (token_no_space isFirst t ht.1 ht.2)
            (Or.inr ⟨'+' :: ' ' :: renderTerms false (u :: ts2), by rw [hsep]; rfl⟩)]
          rw [hsep]
          rw [show ([' ', '+', ' '] ++ renderTerms false (u :: ts2))
              = ' ' :: ('+' :: ' ' :: renderTerms false (u :: ts2)) from rfl]
          rw [splitComps_cons_space _ ' ' (by decide)]
          rw [show ('+' :: ' ' :: renderTerms false (u :: ts2))
              = ['+'] ++ (' ' :: renderTerms false (u :: ts2)) from rfl]
          rw [splitComps_token ['+'] _ (by decide) (by decide)
            (Or.inr ⟨renderTerms false (u :: ts2), rfl⟩)]
          rw [splitComps_cons_space _ ' ' (by decide)]
          rw [ih false hrec]
          simp [renderComps, hu]

theorem token_ne_plus_singleton (isFirst : Bool) (t : PolyTerm) (hc : t.coeff ≠ 0)
    (hg : gFaithful t.coeff = true) :
    renderCoeff isFirst t ++ renderXPart t ≠ ['+'] := by
  intro hx
  have hm : '+' ∈ renderCoeff isFirst t ++ renderXPart t := by
    rw [hx]
    exact List.mem_singleton_self '+'
  exact token_char_ne_plus '+' (token_chars isFirst t hc hg '+' hm) rfl

theorem token_ne_minus_singleton (isFirst : Bool) (t : PolyTerm) (hc : t.coeff ≠ 0)
    (hg : gFaithful t.coeff = true) :
    renderCoeff isFirst t ++ renderXPart t ≠ ['-'] := by
  intro hx
  have hne := gFaithful_ne_nil t.coeff hg
  rcases renderXPart_shape t with ⟨hr, he⟩ | ⟨hr, -⟩ | ⟨hr, -, -⟩ <;> rw [hr] at hx
  · rw [List.append_nil] at hx
    rcases renderCoeff_shape isFirst t hc with ⟨hr2, he2, -⟩ | ⟨hr2, he2, -⟩ |
        ⟨hr2, -⟩ | ⟨hr2, -⟩ <;> rw [hr2] at hx
    · exact List.cons_ne_nil '-' [] hx.symm
    · exact he2 he
    · exact fmtG_abs_ne_minus_singleton t.coeff hg hx
    · rw [List.cons_eq_cons] at hx
      exact hne hx.2
  · cases hrc : renderCoeff isFirst t with
    | nil =>
        rw [hrc, List.nil_append, List.cons_eq_cons] at hx
        exact absurd hx.1 (by decide)
    | cons a l =>
        rw [hrc] at hx
        have := congrArg List.length hx
        simp [List.length_append] at this
  · have := congrArg List.length hx
    simp [List.length_append] at this
    omega

theorem isValidComp_plus : isValidComp ['+'] = true := by decide

theorem isValidComp_minus : isValidComp ['-'] = true := by decide

theorem validCompsLoop_renderComps_tail (ts : List PolyTerm)
    (h : ∀ t ∈ ts, t.coeff ≠ 0 ∧ gFaithful t.coeff = true) (hne : ts ≠ []) :
    validCompsLoop (renderComps false ts) true false = true := by
  induction ts with
  | nil => exact absurd rfl hne
  | cons t rest ih =>
    have ht := h t (List.mem_cons_self t rest)
    have hv := isValidComp_token false t ht.1 ht.2
    have hp := token_ne_plus_singleton false t ht.1 ht.2
    have hm := token_ne_minus_singleton false t ht.1 ht.2
    cases rest with
    | nil =>
        show validCompsLoop [renderCoeff false t ++ renderXPart t] true false = true
        unfold validCompsLoop
        rw [hv]
        rw [if_neg (by simp)]
        rw [if_neg (by simp [Bool.false_eq_true])]
        rw [if_neg (by rw [not_or]; exact ⟨hp, hm⟩)]
        rw [if_neg (by simp)]
        rfl
    | cons u ts2 =>
        have hrec : ∀ v ∈ u :: ts2, v.coeff ≠ 0 ∧ gFaithful v.coeff = true :=
          fun v hv2 => h v (List.mem_cons_of_mem t hv2)
        show validCompsLoop ((renderCoeff false t ++ renderXPart t)
            :: (if u.coeff < 0 then ['-'] else ['+']) :: renderComps false (u :: ts2))
            true false = true
        unfold validCompsLoop
        rw [hv]
        rw [if_neg (by simp)]
        rw [if_neg (by simp [Bool.false_eq_true])]
        rw [if_neg (by rw [not_or]; exact ⟨hp, hm⟩)]
        rw [if_neg (by simp)]
        by_cases hu : u.coeff < 0 <;> simp only [hu, if_true, if_false]
        · unfold validCompsLoop
          rw [isValidComp_minus]
          rw [if_neg (by simp)]
          rw [if_neg (by simp [Bool.false_eq_true])]
          rw [if_pos (Or.inr rfl)]
          rw [if_neg (by simp [Bool.false_eq_true])]
          exact ih hrec (List.cons_ne_nil u ts2)
        · unfold validCompsLoop
          rw [isValidComp_plus]
          rw [if_neg (by simp)]
          rw [if_neg (by simp [Bool.false_eq_true])]
          rw [if_pos (Or.inl rfl)]
          rw [if_neg (by simp [Bool.false_eq_true])]
          exact ih hrec (List.cons_ne_nil u ts2)

theorem validCompsLoop_renderComps (ts : List PolyTerm)
    (h : ∀ t ∈ ts, t.coeff ≠ 0 ∧ gFaithful t.coeff = true) (hne : ts ≠ []) :
    validCompsLoop (renderComps true ts) false true = true := by
  cases ts with
  | nil => exact absurd rfl hne
  | cons t rest =>
    have ht := h t (List.mem_cons_self t rest)
    have hv := isValidComp_token true t ht.1 ht.2
    have hp := token_ne_plus_singleton true t ht.1 ht.2
    have hm := token_ne_minus_singleton true t ht.1 ht.2
    cases rest with
    | nil =>
        show validCompsLoop [renderCoeff true t ++ renderXPart t] false true = true
        unfold validCompsLoop
        rw [hv]
        rw [if_neg (by simp)]
        rw [if_pos rfl]
        rw [if_neg (by rw [not_or]; exact ⟨hp, hm⟩)]
        rfl
    | cons u ts2 =>
        have hrec : ∀ v ∈ u :: ts2, v.coeff ≠ 0 ∧ gFaithful v.coeff = true :=
          fun v hv2 => h v (List.mem_cons_of_mem t hv2)
        show validCompsLoop ((renderCoeff true t ++ renderXPart t)
            :: (if u.coeff < 0 then ['-'] else ['+']) :: renderComps false (u :: ts2))
            false true = true
        unfold validCompsLoop
        rw [hv]
        rw [if_neg (by simp)]
        rw [if_pos rfl]
        rw [if_neg (by rw [not_or]; exact ⟨hp, hm⟩)]
        by_cases hu : u.coeff < 0 <;> simp only [hu, if_true, if_false]
        · unfold validCompsLoop
          rw [isValidComp_minus]
          rw [if_neg (by simp)]
          rw [if_neg (by simp [Bool.false_eq_true])]
          rw [if_pos (Or.inr rfl)]
          rw [if_neg (by simp [Bool.false_eq_true])]
          exact validCompsLoop_renderComps_tail (u :: ts2) hrec (List.cons_ne_nil u ts2)
        · unfold validCompsLoop
          rw [isValidComp_plus]
          rw [if_neg (by simp)]
          rw [if_neg (by simp [Bool.false_eq_true])]
          rw [if_pos (Or.inl rfl)]
          rw [if_neg (by simp [Bool.false_eq_true])]
          exact validCompsLoop_renderComps_tail (u :: ts2) hrec (List.cons_ne_nil u ts2)

theorem renderTerms_ne_nil (isFirst : Bool) (ts : List PolyTerm) (hne : ts ≠ [])
    (h : ∀ t ∈ ts, t.coeff ≠ 0 ∧ gFaithful t.coeff = true) :
    renderTerms isFirst ts ≠ [] := by
  cases ts with
  | nil => exact absurd rfl hne
  | cons t rest =>
    have ht := h t (List.mem_cons_self t rest)
    have htk := token_ne_nil isFirst t ht.1 ht.2
    cases rest with
    | nil => exact htk
    | cons u ts2 =>
        have hassoc : renderTerms isFirst (t :: u :: ts2)
            = (renderCoeff isFirst t ++ renderXPart t)
              ++ (renderSep u ++ renderTerms false (u :: ts2)) := by
          show renderCoeff isFirst t ++ renderXPart t ++ renderSep u
              ++ renderTerms false (u :: ts2) = _
          simp [List.append_assoc]
        rw [hassoc]
        intro hx
        rw [List.append_eq_nil] at hx
        exact htk hx.1

theorem poly_isValidPolyStr_render (ts : List PolyTerm) (hne : ts ≠ [])
    (h : ∀ t ∈ ts, t.coeff ≠ 0 ∧ gFaithful t.coeff = true) :
    poly_isValidPolyStr ⟨renderTerms true ts⟩ = true := by
  unfold poly_isValidPolyStr
  rw [if_neg (by simp [isEmpty_false_of_ne_nil _ (renderTerms_ne_nil true ts hne h)])]
  rw [show (String.mk (renderTerms true ts)).data = renderTerms true ts from rfl]
  rw [splitComps_renderTerms true ts h]
  exact validCompsLoop_renderComps ts h hne

theorem addTerm_append_fresh (p : Poly) (e : Int) (c : Rat)
    (hex : poly_existsTermWithExp p e = false) (hc : c ≠ 0) :
    (poly_addTerm true p e c).1 = Status.SUCCESS ∧
      (poly_addTerm true p e c).2.terms = p.terms ++ [⟨e, c⟩] := by
  unfold poly_addTerm
  rw [hex]
  rw [if_neg (by simp)]
  rw [if_pos hc]
  by_cases hsz : poly_getSize p = p.cap
  · rw [if_pos hsz]
    exact ⟨rfl, rfl⟩
  · rw [if_neg hsz]
    exact ⟨rfl, rfl⟩

theorem existsTermWithExp_append (p p2 : Poly) (u : PolyTerm) (e : Int)
    (h2 : p2.terms = p.terms ++ [u])
    (hp : poly_existsTermWithExp p e = false) (hu : u.exp ≠ e) :
    poly_existsTermWithExp p2 e = false := by
  unfold poly_existsTermWithExp at *
  rw [h2, List.any_append, hp]
  simp [hu]

theorem newPolyLoop_cons_term (comp : List Char) (rest : List (List Char)) (opm isF : Bool)
    (p : Poly) (c c' : Rat) (hnp : comp ≠ ['+']) (hnm : comp ≠ ['-'])
    (hco : getCoeffOfTerm comp = c) (hc : c ≠ 0)
    (hc' : (if ¬isF = true ∧ opm = true then -c else c) = c') :
    newPolyLoop true (comp :: rest) opm isF p
      = match poly_addTerm true p (getExpOfTerm comp) c' with
        | (Status.FAILURE, p') => (Status.FAILURE, p')
        | (Status.SUCCESS, p') => newPolyLoop true rest opm false p' := by
  simp only [newPolyLoop]
  rw [if_neg (not_or.2 ⟨hnp, hnm⟩)]
  rw [hco]
  rw [if_pos hc]
  rw [hc']

theorem newPolyLoop_cons_op (opc : List Char) (rest : List (List Char)) (opm isF : Bool)
    (p : Poly) (hop : opc = ['+'] ∨ opc = ['-']) :
    newPolyLoop true (opc :: rest) opm isF p
      = newPolyLoop true rest (decide (opc = ['-'])) isF p := by
  simp only [newPolyLoop]
  rw [if_pos hop]

theorem newPolyLoop_renderComps_tail (ts : List PolyTerm) :
    ∀ (u : PolyTerm) (p : Poly),
    (∀ t ∈ u :: ts, t.coeff ≠ 0 ∧ gFaithful t.coeff = true) →
    (∀ t ∈ u :: ts, poly_existsTermWithExp p t.exp = false) →
    ((u :: ts).map PolyTerm.exp).Nodup →
    ∃ p2, newPolyLoop true (renderComps false (u :: ts)) (decide (u.coeff < 0)) false p
        = (Status.SUCCESS, p2) ∧ p2.terms = p.terms ++ u :: ts := by
  induction ts with
  | nil =>
    intro u p h hex hnd
    have hu := h u (List.mem_cons_self u [])
    have hc' : (if ¬false = true ∧ decide (u.coeff < 0) = true
        then -|u.coeff| else |u.coeff|) = u.coeff := by
      by_cases hv : u.coeff < 0
      · rw [if_pos ⟨by simp, decide_eq_true hv⟩, abs_of_neg hv, neg_neg]
      · rw [if_neg (fun hh => hv (of_decide_eq_true hh.2))]
        exact abs_of_nonneg (not_lt.1 hv)
    have hstep := newPolyLoop_cons_term (renderCoeff false u ++ renderXPart u) []
      (decide (u.coeff < 0)) false p |u.coeff| u.coeff
      (token_ne_plus_singleton false u hu.1 hu.2)
      (token_ne_minus_singleton false u hu.1 hu.2)
      (by rw [getCoeffOfTerm_token false u hu.1 hu.2]; simp)
      (abs_ne_zero.2 hu.1) hc'
    show ∃ p2, newPolyLoop true [renderCoeff false u ++ renderXPart u]
        (decide (u.coeff < 0)) false p = (Status.SUCCESS, p2) ∧ p2.terms = p.terms ++ [u]
    rw [hstep, getExpOfTerm_token false u hu.1 hu.2]
    obtain ⟨h1, h2⟩ := addTerm_append_fresh p u.exp u.coeff
      (hex u (List.mem_cons_self u [])) hu.1
    cases hadd : poly_addTerm true p u.exp u.coeff with
    | mk st p2 =>
      rw [hadd] at h1 h2
      cases st with
      | FAILURE => exact Status.noConfusion h1
      | SUCCESS => exact ⟨p2, rfl, h2⟩
  | cons v ts3 ih =>
    intro u p h hex hnd
    have hu := h u (List.mem_cons_self u _)
    have hc' : (if ¬false = true ∧ decide (u.coeff < 0) = true
        then -|u.coeff| else |u.coeff|) = u.coeff := by
      by_cases hv : u.coeff < 0
      · rw [if_pos ⟨by simp, decide_eq_true hv⟩, abs_of_neg hv, neg_neg]
      · rw [if_neg (fun hh => hv (of_decide_eq_true hh.2))]
        exact abs_of_nonneg (not_lt.1 hv)
    have hstep := newPolyLoop_cons_term (renderCoeff false u ++ renderXPart u)
      ((if v.coeff < 0 then ['-'] else ['+']) :: renderComps false (v :: ts3))
      (decide (u.coeff < 0)) false p |u.coeff| u.coeff
      (token_ne_plus_singleton false u hu.1 hu.2)
      (token_ne_minus_singleton false u hu.1 hu.2)
      (by rw [getCoeffOfTerm_token false u hu.1 hu.2]; simp)
      (abs_ne_zero.2 hu.1) hc'
    show ∃ p2, newPolyLoop true ((renderCoeff false u ++ renderXPart u)
        :: (if v.coeff < 0 then ['-'] else ['+']) :: renderComps false (v :: ts3))
        (decide (u.coeff < 0)) false p = (Status.SUCCESS, p2)
        ∧ p2.terms = p.terms ++ u :: v :: ts3
    rw [hstep, getExpOfTerm_token false u hu.1 hu.2]
    obtain ⟨h1, h2⟩ := addTerm_append_fresh p u.exp u.coeff
      (hex u (List.mem_cons_self u _)) hu.1
    cases hadd : poly_addTerm true p u.exp u.coeff with
    | mk st p2 =>
      rw [hadd] at h1 h2
      cases st with
      | FAILURE => exact Status.noConfusion h1
      | SUCCESS =>
        have hrecv : ∀ t ∈ v :: ts3, t.coeff ≠ 0 ∧ gFaithful t.coeff = true :=
          fun t ht => h t (List.mem_cons_of_mem u ht)
        have hexv : ∀ t ∈ v :: ts3, poly_existsTermWithExp p2 t.exp = false := by
          intro t ht
          refine existsTermWithExp_append p p2 ⟨u.exp, u.coeff⟩ t.exp h2
            (hex t (List.mem_cons_of_mem u ht)) ?_
          have hmem : t.exp ∈ (v :: ts3).map PolyTerm.exp := List.mem_map_of_mem _ ht
          have := (List.nodup_cons.1 hnd).1
          intro hcon
          exact this (hcon ▸ hmem)
        have hndv : ((v :: ts3).map PolyTerm.exp).Nodup := (List.nodup_cons.1 hnd).2
        obtain ⟨p3, hp3, hterms⟩ := ih v p2 hrecv hexv hndv
        have h2' : p2.terms = p.terms ++ [(⟨u.exp, u.coeff⟩ : PolyTerm)] := h2
        by_cases hv : v.coeff < 0
        · rw [if_pos hv]
          refine ⟨p3, ?_, ?_⟩
          · show newPolyLoop true (['-'] :: renderComps false (v :: ts3))
                (decide (u.coeff < 0)) false p2 = (Status.SUCCESS, p3)
            rw [newPolyLoop_cons_op ['-'] _ _ _ _ (Or.inr rfl)]
            rw [show decide ((['-'] : List Char) = ['-']) = decide (v.coeff < 0) from
              by rw [decide_eq_true hv]; decide]
            exact hp3
          · show p3.terms = p.terms ++ u :: v :: ts3
            rw [hterms, h2', List.append_assoc]
            rfl
        · rw [if_neg hv]
          refine ⟨p3, ?_, ?_⟩
          · show newPolyLoop true (['+'] :: renderComps false (v :: ts3))
                (decide (u.coeff < 0)) false p2 = (Status.SUCCESS, p3)
            rw [newPolyLoop_cons_op ['+'] _ _ _ _ (Or.inl rfl)]
            rw [show decide ((['+'] : List Char) = ['-']) = decide (v.coeff < 0) from
              by rw [decide_eq_false hv]; decide]
            exact hp3
          · show p3.terms = p.terms ++ u :: v :: ts3
            rw [hterms, h2', List.append_assoc]
            rfl

theorem newPoly_renderTerms (ts : List PolyTerm) (hne : ts ≠ [])
    (h : ∀ t ∈ ts, t.coeff ≠ 0 ∧ gFaithful t.coeff = true)
    (hnd : (ts.map PolyTerm.exp).Nodup) (N : Nat) :
    ∃ p2, newPoly true { terms := [], cap := N } (renderTerms true ts)
        = (Status.SUCCESS, p2) ∧ p2.terms = ts := by
  unfold newPoly
  rw [splitComps_renderTerms true ts h]
  cases ts with
  | nil => exact absurd rfl hne
  | cons t rest =>
    have ht := h t (List.mem_cons_self t rest)
    have hc' : (if ¬true = true ∧ (false : Bool) = true then -t.coeff else t.coeff)
        = t.coeff := by
      rw [if_neg (fun hh => hh.1 rfl)]
    cases rest with
    | nil =>
      have hstep := newPolyLoop_cons_term (renderCoeff true t ++ renderXPart t) []
        false true { terms := [], cap := N } t.coeff t.coeff
        (token_ne_plus_singleton true t ht.1 ht.2)
        (token_ne_minus_singleton true t ht.1 ht.2)
        (by rw [getCoeffOfTerm_token true t ht.1 ht.2]; simp)
        ht.1 hc'
      show ∃ p2, newPolyLoop true [renderCoeff true t ++ renderXPart t] false true
          { terms := [], cap := N } = (Status.SUCCESS, p2) ∧ p2.terms = [t]
      rw [hstep, getExpOfTerm_token true t ht.1 ht.2]
      obtain ⟨h1, h2⟩ := addTerm_append_fresh { terms := [], cap := N } t.exp t.coeff rfl ht.1
      cases hadd : poly_addTerm true { terms := [], cap := N } t.exp t.coeff with
      | mk st p2 =>
        rw [hadd] at h1 h2
        cases st with
        | FAILURE => exact Status.noConfusion h1
        | SUCCESS => exact ⟨p2, rfl, h2⟩
    | cons u ts2 =>
      have hstep := newPolyLoop_cons_term (renderCoeff true t ++ renderXPart t)
        ((if u.coeff < 0 then ['-'] else ['+']) :: renderComps false (u :: ts2))
        false true { terms := [], cap := N } t.coeff t.coeff
        (token_ne_plus_singleton true t ht.1 ht.2)
        (token_ne_minus_singleton true t ht.1 ht.2)
        (by rw [getCoeffOfTerm_token true t ht.1 ht.2]; simp)
        ht.1 hc'
      show ∃ p2, newPolyLoop true ((renderCoeff true t ++ renderXPart t)
          :: (if u.coeff < 0 then ['-'] else ['+']) :: renderComps false (u :: ts2))
          false true { terms := [], cap := N } = (Status.SUCCESS, p2)
          ∧ p2.terms = t :: u :: ts2
      rw [hstep, getExpOfTerm_token true t ht.1 ht.2]
      obtain ⟨h1, h2⟩ := addTerm_append_fresh { terms := [], cap := N } t.exp t.coeff rfl ht.1
      cases hadd : poly_addTerm true { terms := [], cap := N } t.exp t.coeff with
      | mk st p2 =>
        rw [hadd] at h1 h2
        cases st with
        | FAILURE => exact Status.noConfusion h1
        | SUCCESS =>
          have h2' : p2.terms = [t] := h2
          have hrecv : ∀ w ∈ u :: ts2, w.coeff ≠ 0 ∧ gFaithful w.coeff = true :=
            fun w hw => h w (List.mem_cons_of_mem t hw)
          have hexv : ∀ w ∈ u :: ts2, poly_existsTermWithExp p2 w.exp = false := by
            intro w hw
            have hmem : w.exp ∈ (u :: ts2).map PolyTerm.exp := List.mem_map_of_mem _ hw
            have hhd := (List.nodup_cons.1 hnd).1
            unfold poly_existsTermWithExp
            rw [h2']
            simp only [List.any_cons, List.any_nil, Bool.or_false]
            rw [decide_eq_false (show ¬t.exp = w.exp from
              fun hcon => hhd (by rw [hcon]; exact hmem))]
          have hndv : ((u :: ts2).map PolyTerm.exp).Nodup := (List.nodup_cons.1 hnd).2
          obtain ⟨p3, hp3, hterms⟩ := newPolyLoop_renderComps_tail ts2 u p2 hrecv hexv hndv
          by_cases hv : u.coeff < 0
          · rw [if_pos hv]
            refine ⟨p3, ?_, ?_⟩
            · show newPolyLoop true (['-'] :: renderComps false (u :: ts2))
                  false false p2 = (Status.SUCCESS, p3)
              rw [newPolyLoop_cons_op ['-'] _ _ _ _ (Or.inr rfl)]
              rw [show decide ((['-'] : List Char) = ['-']) = decide (u.coeff < 0) from
                by rw [decide_eq_true hv]; decide]
              exact hp3
            · show p3.terms = t :: u :: ts2
              rw [hterms, h2']
              rfl
          · rw [if_neg hv]
            refine ⟨p3, ?_, ?_⟩
            · show newPolyLoop true (['+'] :: renderComps false (u :: ts2))
                  false false p2 = (Status.SUCCESS, p3)
              rw [newPolyLoop_cons_op ['+'] _ _ _ _ (Or.inl rfl)]
              rw [show decide ((['+'] : List Char) = ['-']) = decide (u.coeff < 0) from
                by rw [decide_eq_false hv]; decide]
              exact hp3
            · show p3.terms = t :: u :: ts2
              rw [hterms, h2']
              rfl

/-- C5 counterexample, two parts, one per restriction the amendment adds.
Part 1 (non-emptiness is necessary): "x - x" is a valid polynomial string,
constructs the empty polynomial, rendering after sort fails producing no
text, and the empty text is not a valid polynomial string, so nothing parses
back.  Part 2 (`%g`-faithfulness of the coefficients is necessary):
"0.1234567x" is a valid polynomial string constructing a polynomial with a
single exponent-1 term whose coefficient 0.1234567 fails `gFaithful`
(`%g` keeps only six significant digits); rendering after sort produces
"0.123457x", which parses back to a polynomial again with the single
exponent 1 but with a term list different from the original one — both term
lists have one element, so the sets of (exponent, coefficient) terms
differ. -/
theorem render_roundtrip_counterexample :
    (poly_isValidPolyStr "x - x" = true ∧
     (poly_initPolyStr true "x - x").1 = some ⟨[], 2⟩ ∧
     poly_print (poly_sort ⟨[], 2⟩) = (Status.FAILURE, "") ∧
     poly_isValidPolyStr "" = false ∧
     (poly_initPolyStr true "").1 = none) ∧
    (poly_isValidPolyStr "0.1234567x" = true ∧
     (poly_initPolyStr true "0.1234567x").2 = true ∧
     ((poly_initPolyStr true "0.1234567x").1.map (fun p =>
         (p.terms.map PolyTerm.exp,
          p.terms.all (fun t => gFaithful t.coeff),
          (poly_print (poly_sort p)).2,
          (poly_initPolyStr true (poly_print (poly_sort p)).2).1.map (fun q =>
            (q.terms.map PolyTerm.exp,
             decide (q.terms = p.terms))))))
       = some ([1], false, "0.123457x", some ([1], false))) := by
  with_unfolding_all decide

/-- C5 (amended): for every polynomial string accepted by the validator whose
constructed polynomial is non-empty and all of whose stored coefficients are
rendered faithfully by `%g` (`gFaithful`), printing the polynomial after
sorting produces text that `poly_initPolyStr` accepts and parses back to
exactly the same set of (exponent, coefficient) terms.  (The unamended claim
is refuted by `render_roundtrip_counterexample`: the valid string "x - x"
constructs the empty polynomial, which `poly_print` refuses to render.) -/
theorem render_roundtrip_amended (S : String) (p : Poly)
    (hS : (poly_initPolyStr true S).1 = some p)
    (hne : p.terms ≠ [])
    (hg : ∀ t ∈ p.terms, gFaithful t.coeff = true) :
    ∃ q : Poly, poly_initPolyStr true (poly_print (poly_sort p)).2 = (some q, true)
      ∧ q.terms.Perm p.terms := by
  have hinv : polyInv p := initPolyStr_inv true S p hS
  have hsinv : polyInv (poly_sort p) := polyInv_sort p hinv
  have hperm : (poly_sort p).terms.Perm p.terms := poly_sort_perm p
  have htsne : (poly_sort p).terms ≠ [] := by
    intro hnil
    have h' := hperm
    rw [hnil] at h'
    exact hne h'.symm.eq_nil
  have hh : ∀ t ∈ (poly_sort p).terms, t.coeff ≠ 0 ∧ gFaithful t.coeff = true :=
    fun t ht => ⟨hsinv.1 t ht, hg t (hperm.subset ht)⟩
  have hnd : ((poly_sort p).terms.map PolyTerm.exp).Nodup := hsinv.2
  have hnoterm : poly_hasNoTerms (poly_sort p) = false := by
    unfold poly_hasNoTerms poly_getSize
    exact decide_eq_false (fun hcon => htsne (List.length_eq_zero.1 hcon))
  have hprint : (poly_print (poly_sort p)).2
      = ⟨renderTerms true (poly_sort p).terms⟩ := by
    unfold poly_print
    rw [hnoterm]
    rfl
  rw [hprint]
  unfold poly_initPolyStr
  rw [if_neg (by rw [poly_isValidPolyStr_render _ htsne hh]; simp)]
  obtain ⟨p2, hp2, hterms⟩ := newPoly_renderTerms (poly_sort p).terms htsne hh hnd
    (getMaxNumOfTerms (String.mk (renderTerms true (poly_sort p).terms)).data)
  rw [show (String.mk (renderTerms true (poly_sort p).terms)).data
      = renderTerms true (poly_sort p).terms from rfl]
  rw [hp2]
  refine ⟨p2, rfl, ?_⟩
  rw [hterms]
  exact hperm

theorem render_roundtrip_amended_witness :
    ∃ q : Poly, poly_initPolyStr true (poly_print (poly_sort ⟨[⟨1, 2⟩], 1⟩)).2
        = (some q, true) ∧ q.terms.Perm [⟨1, 2⟩] :=
  render_roundtrip_amended "2x" ⟨[⟨1, 2⟩], 1⟩ (by with_unfolding_all decide)
    (by simp)
    (by intro t ht; rw [List.mem_singleton] at ht; subst ht; with_unfolding_all decide)

end PolyCalc
